import Mathlib

/-!
Verification of the Mermaid text-repair pipeline
(`src/services/backend/src/lib/mermaid_utils.py` and the scanner-based
variant in `src/services/backend/src/agents/tools.py`).

Strings are modelled as `List Char`.  Python regular-expression passes are
modelled by equivalent deterministic scans (the patterns used in the source
are backtracking-free, as argued at each definition).
-/

set_option maxHeartbeats 1000000

/-- Strings are modelled as lists of characters. -/
abbrev Str := List Char

theorem length_dropWhile_le (p : Char → Bool) (l : Str) :
    (l.dropWhile p).length ≤ l.length := by
  induction l with
  | nil => simp [List.dropWhile]
  | cons c rest ih =>
    by_cases h : p c <;> simp [List.dropWhile, h] <;> omega

/-- Python's whitespace predicate (`str.isspace` / regex `\s` on the
codepoints that can actually survive into the pipeline). -/
def pyIsSpace (c : Char) : Bool :=
  c = ' ' || c = '\t' || c = '\n' || c = '\u000B' || c = '\u000C' || c = '\r' ||
  c = '\u001C' || c = '\u001D' || c = '\u001E' || c = '\u001F' ||
  c = '\u0085' || c = '\u00A0' || c = '\u1680' ||
  ('\u2000' ≤ c && c ≤ '\u200A') ||
  c = '\u2028' || c = '\u2029' || c = '\u202F' || c = '\u205F' || c = '\u3000'

/-- Python `str.lstrip()`. -/
def pyLStrip (s : Str) : Str := s.dropWhile pyIsSpace

/-- Python `str.rstrip()`. -/
def pyRStrip (s : Str) : Str := (s.reverse.dropWhile pyIsSpace).reverse

/-- Python `str.strip()`. -/
def pyStrip (s : Str) : Str := pyRStrip (pyLStrip s)

/-- Python `s.split('\n')`. -/
def splitLines : Str → List Str
  | [] => [[]]
  | c :: rest =>
    if c = '\n' then [] :: splitLines rest
    else
      match splitLines rest with
      | [] => [[c]]
      | l :: ls => (c :: l) :: ls

/-- Python `'\n'.join(lines)`. -/
def joinLines : List Str → Str
  | [] => []
  | [l] => l
  | l :: ls => l ++ '\n' :: joinLines ls

/-- Substring test (`pat in s` in Python). -/
def containsSub (s pat : Str) : Bool :=
  match s with
  | [] => pat.isPrefixOf s
  | _ :: rest => pat.isPrefixOf s || containsSub rest pat

/-- Streaming form of `re.sub(r'\s+', ' ', ·)`: the flag records whether the
previous character was whitespace, so each maximal whitespace run emits a
single `' '` at its first character. -/
def collapseWSAux : Str → Bool → Str
  | [], _ => []
  | ch :: rest, prevWs =>
    if pyIsSpace ch then
      if prevWs then collapseWSAux rest true
      else ' ' :: collapseWSAux rest true
    else ch :: collapseWSAux rest false

/-- Collapse of every whitespace run to a single space
(`re.sub(r'\s+', ' ', ·)`). -/
def collapseWS (s : Str) : Str := collapseWSAux s false

/-- `re.sub(r'\s+', ' ', content.strip())` — the label-content cleaner shared
by all four label-normalizing passes in `sanitize_mermaid`. -/
def cleanInner (content : Str) : Str := collapseWS (pyStrip content)

/-- The Unicode-normalizer pass of `sanitize_mermaid` (lines 95–105):
line/paragraph separators to `\n`, narrow/non-breaking spaces to `' '`,
zero-width characters deleted. -/
def normalizeUnicode (s : Str) : Str :=
  s.filterMap fun c =>
    if c = '\u2028' || c = '\u2029' || c = '\u0085' then some '\n'
    else if c = '\u00A0' || c = '\u202F' then some ' '
    else if c = '\u200B' || c = '\u200C' || c = '\u200D' || c = '\uFEFF' then none
    else some c

/-- `s.replace('\r\n', '\n')`: leftmost, non-overlapping replacement of
each CRLF pair by a newline. -/
def replaceCRLF : Str → Str
  | [] => []
  | [c] => [c]
  | c :: d :: rest =>
    if c = '\r' ∧ d = '\n' then '\n' :: replaceCRLF rest
    else c :: replaceCRLF (d :: rest)

/-- `·.replace('\r', '\n')`. -/
def replaceCR (s : Str) : Str := s.map fun c => if c = '\r' then '\n' else c

/-- Streaming form of one regex label pass of `sanitize_mermaid`
(`re.sub(r'⟨o⟩([^⟨o⟩⟨c⟩]*?)⟨c⟩', clean, s, flags=re.DOTALL)`).  The lazy
pattern matches at an opening delimiter exactly when the next delimiter
character is the matching closer, so the scan keeps a buffer (in reverse)
of the delimiter-free text seen since the last unmatched opener: a closer
ends the span (its content stripped and whitespace-collapsed), a fresh
opener flushes the previous opener and its buffer verbatim and restarts the
span, and an opener left unclosed at the end of the input is emitted
verbatim.  With `o = c = '"'` the closer test fires first, giving exactly
the quoted-string pass (consecutive quotes pair up). -/
def cleanDelimsAux (o c : Char) : Str → Option Str → Str
  | [], none => []
  | [], some buf => o :: buf.reverse
  | ch :: rest, none =>
    if ch = o then cleanDelimsAux o c rest (some [])
    else ch :: cleanDelimsAux o c rest none
  | ch :: rest, some buf =>
    if ch = c then
      o :: (cleanInner buf.reverse ++ c :: cleanDelimsAux o c rest none)
    else if ch = o then
      o :: buf.reverse ++ cleanDelimsAux o c rest (some [])
    else cleanDelimsAux o c rest (some (ch :: buf))

/-- One regex label pass (see `cleanDelimsAux`). -/
def cleanDelims (o c : Char) (s : Str) : Str := cleanDelimsAux o c s none

/-- Interior of `re.sub(r'(?<=\S)\s{2,}(?=\S)', ' ', ·)` after the leading
whitespace run has been set aside: every maximal whitespace run of length at
least two is replaced by one space (a lone whitespace character is kept
verbatim).  The flag records that the scan is inside a run whose single
`' '` has already been emitted. -/
def compactInteriorAux : Str → Bool → Str
  | [], _ => []
  | ch :: rest, skipping =>
    if skipping then
      if pyIsSpace ch then compactInteriorAux rest true
      else ch :: compactInteriorAux rest false
    else
      if pyIsSpace ch then
        match rest with
        | d :: _ =>
          if pyIsSpace d then ' ' :: compactInteriorAux rest true
          else ch :: compactInteriorAux rest false
        | [] => [ch]
      else ch :: compactInteriorAux rest false

/-- Interior whitespace-run compaction (see `compactInteriorAux`). -/
def compactInterior (s : Str) : Str := compactInteriorAux s false

/-- Per-line cleanup of `sanitize_mermaid` (line 161):
`re.sub(r'(?<=\S)\s{2,}(?=\S)', ' ', line.rstrip())`.  After `rstrip` no
whitespace run touches the end of the line, and a run at the very start has
no preceding `\S`, so the regex collapses exactly the interior maximal runs
of length ≥ 2. -/
def compactLine (l : Str) : Str :=
  let r := pyRStrip l
  r.takeWhile pyIsSpace ++ compactInterior (r.dropWhile pyIsSpace)

/-- Word-character test for the regexes' `\w` (ASCII range). -/
def isWordChar (c : Char) : Bool := c.isAlphanum || c = '_'

/-- The recognized diagram directive keywords (line 169–171). -/
def directiveKeywords : List Str :=
  ["graph".toList, "flowchart".toList, "sequenceDiagram".toList,
   "classDiagram".toList, "stateDiagram".toList, "stateDiagram-v2".toList]

/-- `directive_re.match(ln)` for the anchored pattern
`^(graph|flowchart|…|stateDiagram-v2)\b`: some keyword is a prefix and is
followed by a word boundary. -/
def matchesDirective (l : Str) : Bool :=
  directiveKeywords.any fun kw =>
    kw.isPrefixOf l &&
      (match l.drop kw.length with
       | [] => true
       | c :: _ => !isWordChar c)

/-- `_balance_subgraph_ends`, inner loop (lines 55–74). -/
def balanceGo : List Str → Nat → List Str
  | [], _ => []
  | l :: rest, depth =>
    let stripped := pyStrip l
    if ("subgraph".toList).isPrefixOf stripped then
      l :: balanceGo rest (depth + 1)
    else if stripped = "end".toList then
      if depth > 0 then l :: balanceGo rest (depth - 1)
      else balanceGo rest depth
    else l :: balanceGo rest depth

/-- `_balance_subgraph_ends(lines)`. -/
def balanceSubgraphEnds (lines : List Str) : List Str := balanceGo lines 0

/-- Case-insensitive literal prefix test (the pattern text is lowercase
ASCII, which is all `re.IGNORECASE` needs here). -/
def ciPrefix (pat s : Str) : Bool := (s.take pat.length).map Char.toLower = pat

/-- Consume `\s*\n` at the start of `r` with nothing following in the
pattern: the greedy run backtracks to the last newline of the maximal
whitespace run.  Returns the remainder, or `none` when the run holds no
newline. -/
def wsRunToLastNL (r : Str) : Option Str :=
  let run := r.takeWhile pyIsSpace
  if run.contains '\n' then
    some (r.drop (run.length - (run.reverse.takeWhile fun c => c ≠ '\n').length))
  else none

/-- `re.sub(r'^```\s*mermaid\s*\n', '', s, flags=re.IGNORECASE)`
(anchored, so at most the single match at position zero). -/
def stripMermaidHeader (s : Str) : Str :=
  if ("```".toList).isPrefixOf s then
    let r := (s.drop 3).dropWhile pyIsSpace
    if ciPrefix "mermaid".toList r then
      match wsRunToLastNL (r.drop 7) with
      | some body => body
      | none => s
    else s
  else s

/-- `re.sub(r'^```\s*\n', '', s)`. -/
def stripGenericHeader (s : Str) : Str :=
  if ("```".toList).isPrefixOf s then
    match wsRunToLastNL (s.drop 3) with
    | some body => body
    | none => s
  else s

/-- `re.sub(r'\n```\s*$', '', s)`: the leftmost `\n```` ``` `` followed only
by whitespace up to the end of the string is removed together with
everything after it. -/
def stripTrailingFence : Str → Str
  | [] => []
  | ch :: rest =>
    if ch = '\n' ∧ ("```".toList).isPrefixOf rest ∧ (rest.drop 3).all pyIsSpace then []
    else ch :: stripTrailingFence rest

/-- The fence-stripping block of `sanitize_mermaid` (lines 110–114). -/
def stripFences (s : Str) : Str :=
  if ("```".toList).isPrefixOf s then
    pyStrip (stripTrailingFence (stripGenericHeader (stripMermaidHeader s)))
  else s

/-- `re.match(r'class\s+(\w+)(?:\s*\{)?\s*$', stripped)` together with the
source's `'{' in stripped` flag for `inside_class_block`. -/
def classDeclMatch (stripped : Str) : Option (Str × Bool) :=
  if ("class".toList).isPrefixOf stripped then
    let r := stripped.drop 5
    if r.takeWhile pyIsSpace = [] then none
    else
      let r1 := r.dropWhile pyIsSpace
      let nm := r1.takeWhile isWordChar
      if nm = [] then none
      else
        let r2 := r1.dropWhile isWordChar
        if r2.all pyIsSpace then some (nm, containsSub stripped ['{'])
        else
          match r2.dropWhile pyIsSpace with
          | '{' :: r4 =>
            if r4.all pyIsSpace then some (nm, containsSub stripped ['{']) else none
          | _ => none
  else none

/-- Emission of a buffered class block
(`fixed_lines.append(f'    class {name} {{') …` or the bare declaration). -/
def flushClass (nm : Str) (content : List Str) : List Str :=
  if content = [] then ["    class ".toList ++ nm]
  else ("    class ".toList ++ nm ++ " \x7b".toList) ::
       (content.map fun c => "        ".toList ++ c) ++ ["    \x7d".toList]

/-- The line loop of `_fix_class_diagram_syntax` (lines 200–275), with the
state `(inside_class_block, class_block_content, current_class_name)`
threaded explicitly; the final force-flush of a still-open block is the
`[]` case. -/
def fixGo : List Str → Bool → List Str → Option Str → List Str
  | [], inside, content, name =>
    if inside then
      match name with
      | some nm => flushClass nm content
      | none => []
    else []
  | l :: rest, inside, content, name =>
    let st := pyStrip l
    if st = [] then fixGo rest inside content name
    else if st = "classDiagram".toList then st :: fixGo rest inside content name
    else if ("class ".toList).isPrefixOf st then
      let doFlush := inside && name.isSome
      let pre := if doFlush then flushClass (name.getD []) content else []
      let content1 := if doFlush then [] else content
      match classDeclMatch st with
      | some (nm, hasB) =>
        if hasB then pre ++ fixGo rest true content1 (some nm)
        else pre ++ ("    class ".toList ++ nm) :: fixGo rest false content1 none
      | none => pre ++ fixGo rest inside content1 name
    else if st = "\x7d".toList ∧ inside then
      let pre := match name with
                 | some nm => flushClass nm content
                 | none => []
      pre ++ fixGo rest false [] none
    else if inside then
      if st.contains ':' || ("()".toList).isSuffixOf st then
        fixGo rest inside (content ++ [st]) name
      else fixGo rest inside content name
    else if containsSub st "-->".toList || containsSub st "--".toList ||
            ("%%".toList).isPrefixOf st then
      ("    ".toList ++ st) :: fixGo rest inside content name
    else ("    ".toList ++ st) :: fixGo rest inside content name

/-- `_fix_class_diagram_syntax(code)`. -/
def fixClassDiagram (code : Str) : Str :=
  joinLines (fixGo (splitLines code) false [] none)

/-- Lines 95–114 of `sanitize_mermaid`: Unicode normalization, line-ending
normalization, strip, and fence removal. -/
def sanitizePre (code : Str) : Str :=
  stripFences (pyStrip (replaceCR (replaceCRLF (normalizeUnicode code))))

/-- Line 117–118: the conditional class-diagram reconstruction. -/
def classFixStage (s : Str) : Str :=
  if containsSub s "classDiagram".toList then fixClassDiagram s else s

/-- Lines 140–147: the curly-brace pass, skipped for class diagrams. -/
def bracePass (s : Str) : Str :=
  if containsSub s "classDiagram".toList then s else cleanDelims '{' '}' s

/-- Lines 95–155 of `sanitize_mermaid`: everything before the line-oriented
cleanup (for non-empty input). -/
def sanitizeChar (code : Str) : Str :=
  cleanDelims '"' '"'
    (bracePass (cleanDelims '(' ')' (cleanDelims '[' ']'
      (classFixStage (sanitizePre code)))))

/-- Lines 158–165: per-line whitespace compaction and blank-line removal. -/
def sanitizedLines (code : Str) : List Str :=
  ((splitLines (sanitizeChar code)).map compactLine).filter fun l => pyStrip l ≠ []

/-- Lines 167–176: index of the first directive line (0 when none found). -/
def sanitizeStart (code : Str) : Nat :=
  ((sanitizedLines code).findIdx? fun l => matchesDirective (pyStrip l)).getD 0

/-- `sanitize_mermaid(code)` (lines 77–182). -/
def sanitize_mermaid (code : Str) : Str :=
  if code = [] then code
  else pyStrip (joinLines
    (balanceSubgraphEnds ((sanitizedLines code).drop (sanitizeStart code))))

/-- Leftmost occurrence of a literal pattern, splitting the string into the
part before the occurrence and the part after it. -/
def findSubSplit (pat : Str) : Str → Option (Str × Str)
  | [] => if pat = [] then some ([], []) else none
  | s@(ch :: rest) =>
    if pat.isPrefixOf s then some ([], s.drop pat.length)
    else
      match findSubSplit pat rest with
      | some (bef, aft) => some (ch :: bef, aft)
      | none => none

/-- The `\s*\n(?P<code>[\s\S]*?)\n``​`` tail of both fence-extraction
patterns: the greedy whitespace run backtracks from its last newline
downward until the remainder contains a closing `\n```​`; the lazy group then
ends at the first such closing. -/
def fenceBody (r : Str) : Option Str :=
  let run := r.takeWhile pyIsSpace
  (((List.range run.length).filter fun i => run.getD i ' ' = '\n').reverse).findSome?
    fun k =>
      match findSubSplit ('\n' :: "```".toList) (r.drop (k + 1)) with
      | some (code, _) => some code
      | none => none

/-- One attempt of `re.search(r'```\s*mermaid\s*\n(?P<code>[\s\S]*?)\n```',
·, re.IGNORECASE)` anchored at the current position. -/
def matchMermaidFenceAt (s : Str) : Option Str :=
  if ("```".toList).isPrefixOf s then
    let r := (s.drop 3).dropWhile pyIsSpace
    if ciPrefix "mermaid".toList r then fenceBody (r.drop 7) else none
  else none

/-- One attempt of `re.search(r'```\s*\n(?P<code>[\s\S]*?)\n```', ·)`
anchored at the current position. -/
def matchGenericFenceAt (s : Str) : Option Str :=
  if ("```".toList).isPrefixOf s then fenceBody (s.drop 3) else none

/-- `re.search`: try the anchored matcher at every position, left to
right. -/
def searchFence (f : Str → Option Str) : Str → Option Str
  | [] => f []
  | s@(_ :: rest) =>
    match f s with
    | some code => some code
    | none => searchFence f rest

/-- `extract_mermaid(text)` (lines 20–40). -/
def extract_mermaid (text : Str) : Str :=
  if text = [] then text
  else
    match searchFence matchMermaidFenceAt text with
    | some code => pyStrip code
    | none =>
      match searchFence matchGenericFenceAt text with
      | some code => pyStrip code
      | none => pyStrip text

/-- `create_fallback_mermaid(description)` (lines 280–289). -/
def create_fallback_mermaid (description : Str) : Str :=
  "graph TD\n".toList ++
  "    A[Start] --> B{Process}\n".toList ++
  "    B -->|Analyze| C[Components]\n".toList ++
  "    C --> D[Interactions]\n".toList ++
  "    D --> E[Output]\n".toList ++
  "    %% Input: ".toList ++ description.take 80 ++ "...\n".toList

/-- The quoted-label scan of the scanner-based sanitizer
`_sanitize_mermaid` in `src/services/backend/src/agents/tools.py`
(lines 179–191): a quote toggles `in_quote` only when the previous
character is not a backslash; newlines inside quotes become spaces. -/
def toolsQuoteGo : Str → Bool → Option Char → Str
  | [], _, _ => []
  | ch :: rest, inQuote, prev =>
    if ch = '"' ∧ prev ≠ some '\\' then
      ch :: toolsQuoteGo rest (!inQuote) (some ch)
    else if inQuote ∧ ch = '\n' then
      ' ' :: toolsQuoteGo rest inQuote (some ch)
    else ch :: toolsQuoteGo rest inQuote (some ch)

/-- The quoted-label pass of `tools._sanitize_mermaid`. -/
def toolsQuotePass (s : Str) : Str := toolsQuoteGo s false none

/-! ## Basic lemmas about the string primitives -/

theorem dropWhile_dropWhile (p : Char → Bool) (l : Str) :
    (l.dropWhile p).dropWhile p = l.dropWhile p := by
  induction l with
  | nil => simp
  | cons c t ih =>
    by_cases h : p c
    · simp [List.dropWhile, h, ih]
    · simp [List.dropWhile, h]

theorem pyLStrip_idem (s : Str) : pyLStrip (pyLStrip s) = pyLStrip s :=
  dropWhile_dropWhile pyIsSpace s

theorem pyRStrip_idem (s : Str) : pyRStrip (pyRStrip s) = pyRStrip s := by
  unfold pyRStrip
  rw [List.reverse_reverse, dropWhile_dropWhile]

theorem pyRStrip_eq_nil_iff {s : Str} : pyRStrip s = [] ↔ ∀ c ∈ s, pyIsSpace c := by
  unfold pyRStrip
  rw [List.reverse_eq_nil_iff, List.dropWhile_eq_nil_iff]
  constructor
  · intro h c hc
    exact h c (List.mem_reverse.mpr hc)
  · intro h c hc
    exact h c (List.mem_reverse.mp hc)

theorem pyLStrip_eq_nil_iff {s : Str} : pyLStrip s = [] ↔ ∀ c ∈ s, pyIsSpace c := by
  unfold pyLStrip
  exact List.dropWhile_eq_nil_iff

theorem pyLStrip_append {s : Str} (t : Str) (h : pyLStrip s ≠ []) :
    pyLStrip (s ++ t) = pyLStrip s ++ t := by
  unfold pyLStrip at *
  rw [List.dropWhile_append, if_neg]
  simpa using h

theorem pyRStrip_append (s : Str) {t : Str} (h : pyRStrip t ≠ []) :
    pyRStrip (s ++ t) = s ++ pyRStrip t := by
  unfold pyRStrip at *
  rw [List.reverse_append, List.dropWhile_append, if_neg, List.reverse_append,
    List.reverse_reverse]
  intro hc
  rw [List.isEmpty_iff] at hc
  exact h (by rw [hc]; simp)

theorem pyRStrip_cons {c : Char} {t : Str} (h : pyRStrip t ≠ []) :
    pyRStrip (c :: t) = c :: pyRStrip t := by
  have := pyRStrip_append [c] h
  simpa using this

theorem pyLStrip_cons_of_space {c : Char} (t : Str) (h : pyIsSpace c) :
    pyLStrip (c :: t) = pyLStrip t := by
  simp [pyLStrip, List.dropWhile, h]

theorem pyLStrip_cons_of_not_space {c : Char} (t : Str) (h : ¬ pyIsSpace c) :
    pyLStrip (c :: t) = c :: t := by
  simp [pyLStrip, List.dropWhile, h]

theorem pyRStrip_cons_of_all_space {c : Char} {t : Str}
    (ht : ∀ x ∈ t, pyIsSpace x) :
    pyRStrip (c :: t) = if pyIsSpace c then [] else [c] := by
  have h1 : pyRStrip t = [] := pyRStrip_eq_nil_iff.mpr ht
  unfold pyRStrip at *
  rw [List.reverse_eq_nil_iff] at h1
  have : (c :: t).reverse = t.reverse ++ [c] := by simp
  rw [this, List.dropWhile_append, h1]
  by_cases hc : pyIsSpace c <;> simp [List.dropWhile, hc]

theorem pyLStrip_pyRStrip_comm (s : Str) :
    pyLStrip (pyRStrip s) = pyRStrip (pyLStrip s) := by
  induction s with
  | nil => simp [pyLStrip, pyRStrip]
  | cons c t ih =>
    by_cases hc : pyIsSpace c
    · rw [pyLStrip_cons_of_space t hc]
      by_cases ht : pyRStrip t = []
      · have hall : ∀ x ∈ t, pyIsSpace x := pyRStrip_eq_nil_iff.mp ht
        have hLt : pyLStrip t = [] := pyLStrip_eq_nil_iff.mpr hall
        rw [pyRStrip_cons_of_all_space hall, if_pos hc, hLt]
        simp [pyLStrip, pyRStrip, List.dropWhile]
      · rw [pyRStrip_cons ht, pyLStrip_cons_of_space _ hc, ih]
    · rw [pyLStrip_cons_of_not_space t hc]
      by_cases ht : pyRStrip t = []
      · have hall : ∀ x ∈ t, pyIsSpace x := pyRStrip_eq_nil_iff.mp ht
        rw [pyRStrip_cons_of_all_space hall, if_neg hc]
        simp [pyLStrip, List.dropWhile, hc]
      · rw [pyRStrip_cons ht, pyLStrip_cons_of_not_space _ hc]

theorem pyStrip_pyLStrip (s : Str) : pyStrip (pyLStrip s) = pyStrip s := by
  unfold pyStrip
  rw [pyLStrip_idem]

theorem pyStrip_pyRStrip (s : Str) : pyStrip (pyRStrip s) = pyStrip s := by
  unfold pyStrip
  rw [pyLStrip_pyRStrip_comm, pyRStrip_idem]

theorem pyStrip_idem (s : Str) : pyStrip (pyStrip s) = pyStrip s := by
  show pyStrip (pyRStrip (pyLStrip s)) = pyStrip s
  rw [pyStrip_pyRStrip, pyStrip_pyLStrip]

theorem pyStrip_eq_nil_iff {s : Str} : pyStrip s = [] ↔ ∀ c ∈ s, pyIsSpace c := by
  unfold pyStrip
  rw [pyRStrip_eq_nil_iff]
  constructor
  · intro h c hc
    by_cases hcs : pyIsSpace c
    · exact hcs
    · exact h c (by
        have hsplit := List.takeWhile_append_dropWhile pyIsSpace s
        have : c ∈ s.takeWhile pyIsSpace ∨ c ∈ s.dropWhile pyIsSpace := by
          rw [← List.mem_append, hsplit]; exact hc
        rcases this with h1 | h1
        · exact absurd (List.mem_takeWhile_imp h1) hcs
        · exact h1)
  · intro h c hc
    exact h c ((List.dropWhile_sublist pyIsSpace).subset hc)

theorem mem_of_mem_pyLStrip {c : Char} {s : Str} (h : c ∈ pyLStrip s) : c ∈ s :=
  (List.dropWhile_sublist pyIsSpace).subset h

theorem mem_of_mem_pyRStrip {c : Char} {s : Str} (h : c ∈ pyRStrip s) : c ∈ s := by
  unfold pyRStrip at h
  rw [List.mem_reverse] at h
  exact List.mem_reverse.mp ((List.dropWhile_sublist pyIsSpace).subset h)

theorem mem_of_mem_pyStrip {c : Char} {s : Str} (h : c ∈ pyStrip s) : c ∈ s :=
  mem_of_mem_pyLStrip (mem_of_mem_pyRStrip h)

/-! ## Lemmas about `splitLines` and `joinLines` -/

theorem splitLines_ne_nil (s : Str) : splitLines s ≠ [] := by
  induction s with
  | nil => simp [splitLines]
  | cons c rest ih =>
    by_cases h : c = '\n'
    · simp [splitLines, h]
    · simp only [splitLines, if_neg h]
      rcases hs : splitLines rest with _ | ⟨l, ls⟩
      · simp
      · simp

theorem mem_splitLines_no_nl {s : Str} : ∀ l ∈ splitLines s, '\n' ∉ l := by
  induction s with
  | nil => simp [splitLines]
  | cons c rest ih =>
    by_cases h : c = '\n'
    · simp only [splitLines, if_pos h]
      intro l hl
      rcases List.mem_cons.mp hl with hl1 | hl1
      · simp [hl1]
      · exact ih l hl1
    · simp only [splitLines, if_neg h]
      rcases hs : splitLines rest with _ | ⟨t, ls⟩
      · exact absurd hs (splitLines_ne_nil rest)
      · show ∀ l ∈ (c :: t) :: ls, '\n' ∉ l
        intro l hl
        rcases List.mem_cons.mp hl with hl1 | hl1
        · subst hl1
          intro hmem
          rcases List.mem_cons.mp hmem with hmem | hmem
          · exact h hmem.symm
          · exact ih t (by rw [hs]; exact List.mem_cons_self _ _) hmem
        · exact ih l (by rw [hs]; exact List.mem_cons_of_mem _ hl1)

theorem splitLines_of_no_nl {s : Str} (h : '\n' ∉ s) : splitLines s = [s] := by
  induction s with
  | nil => simp [splitLines]
  | cons c rest ih =>
    have hc : c ≠ '\n' := fun hc => h (by simp [hc])
    have hrest : '\n' ∉ rest := fun hr => h (List.mem_cons_of_mem _ hr)
    simp only [splitLines, if_neg hc, ih hrest]

theorem splitLines_append_nl {a : Str} (z : Str) (h : '\n' ∉ a) :
    splitLines (a ++ '\n' :: z) = a :: splitLines z := by
  induction a with
  | nil => simp [splitLines]
  | cons c t ih =>
    have hc : c ≠ '\n' := fun hc => h (by simp [hc])
    have ht : '\n' ∉ t := fun hr => h (List.mem_cons_of_mem _ hr)
    rw [List.cons_append]
    simp only [splitLines, if_neg hc]
    rw [ih ht]

theorem joinLines_cons (l : Str) {ls : List Str} (h : ls ≠ []) :
    joinLines (l :: ls) = l ++ '\n' :: joinLines ls := by
  rcases ls with _ | ⟨x, xs⟩
  · exact absurd rfl h
  · rfl

/-! ## C1, C6, C9 -/

/-- C1: the spec and the repository's own test
(`tests/test_mermaid_multiline.py::test_ampersand_in_labels`) require literal
ampersands inside labels to be replaced by the word "and", but
`sanitize_mermaid` contains no such replacement: on `"A[Task & Response]"`
it returns the input unchanged, with the ampersand still inside the label
and `"Task and Response"` nowhere in the output. -/
theorem C1_ampersand_unreplaced :
    sanitize_mermaid ("A[Task & Response]".toList) = "A[Task & Response]".toList ∧
    '&' ∈ sanitize_mermaid ("A[Task & Response]".toList) ∧
    containsSub (sanitize_mermaid ("A[Task & Response]".toList))
      ("Task and Response".toList) = false := by
  refine ⟨by decide, by decide, by decide⟩

/-- C6: `sanitize_mermaid` and `extract_mermaid` are total functions of their
string argument (every input has a result — the embedding returns a string
for every list of characters, with no error case), and sanitizing the empty
string or the three-space string yields the empty string. -/
theorem C6_totality_and_empty :
    (∀ t : Str, ∃ r : Str, sanitize_mermaid t = r) ∧
    (∀ t : Str, ∃ r : Str, extract_mermaid t = r) ∧
    sanitize_mermaid [] = [] ∧
    sanitize_mermaid ("   ".toList) = [] :=
  ⟨fun _ => ⟨_, rfl⟩, fun _ => ⟨_, rfl⟩, rfl, by decide⟩

/-- The fixed five-node topology the spec names for the fallback generator
(§4.8): `graph` directive plus four directed edges, written here as one
constant, independent of the description. -/
def fallbackTopology : Str :=
  ("graph TD\n    A[Start] --> B{Process}\n    B -->|Analyze| C[Components]\n" ++
   "    C --> D[Interactions]\n    D --> E[Output]\n").toList

/-- C9: `create_fallback_mermaid` is a function of the description only, and
every output is the same fixed five-node topology followed by a trailing
comment line embedding the first 80 characters of the description; hence two
outputs differ at most in that comment line. -/
theorem C9_fallback_determinism :
    ∀ d : Str, create_fallback_mermaid d =
      fallbackTopology ++ ("    %% Input: ".toList ++ (d.take 80 ++ "...\n".toList)) := by
  intro d
  unfold create_fallback_mermaid
  simp only [← List.append_assoc]
  congr 2

/-! ## Subgraph/end balance (C3) -/

/-- A line whose trimmed form starts with the `subgraph` keyword. -/
def isSubLine (l : Str) : Bool := ("subgraph".toList).isPrefixOf (pyStrip l)

/-- A line whose trimmed form is exactly the terminator keyword `end`. -/
def isEndLine (l : Str) : Bool := pyStrip l == "end".toList

theorem isEndLine_false_of_isSubLine {l : Str} (h : isSubLine l = true) :
    isEndLine l = false := by
  unfold isSubLine at h
  unfold isEndLine
  by_contra hne
  rw [Bool.not_eq_false, beq_iff_eq] at hne
  rw [hne] at h
  exact absurd (List.isPrefixOf_iff_prefix.mp h).length_le (by decide)

theorem balanceGo_cons_sub {l : Str} (rest : List Str) (d : ℕ)
    (h1 : ("subgraph".toList).isPrefixOf (pyStrip l) = true) :
    balanceGo (l :: rest) d = l :: balanceGo rest (d + 1) := by
  simp only [balanceGo]
  rw [if_pos h1]

theorem balanceGo_cons_end_pos {l : Str} (rest : List Str) {d : ℕ}
    (h1 : ¬ ("subgraph".toList).isPrefixOf (pyStrip l) = true)
    (h2 : pyStrip l = "end".toList) (hd : d > 0) :
    balanceGo (l :: rest) d = l :: balanceGo rest (d - 1) := by
  simp only [balanceGo]
  rw [if_neg h1, if_pos h2, if_pos hd]

theorem balanceGo_cons_end_zero {l : Str} (rest : List Str) {d : ℕ}
    (h1 : ¬ ("subgraph".toList).isPrefixOf (pyStrip l) = true)
    (h2 : pyStrip l = "end".toList) (hd : ¬ d > 0) :
    balanceGo (l :: rest) d = balanceGo rest d := by
  simp only [balanceGo]
  rw [if_neg h1, if_pos h2, if_neg hd]

theorem balanceGo_cons_other {l : Str} (rest : List Str) (d : ℕ)
    (h1 : ¬ ("subgraph".toList).isPrefixOf (pyStrip l) = true)
    (h2 : ¬ pyStrip l = "end".toList) :
    balanceGo (l :: rest) d = l :: balanceGo rest d := by
  simp only [balanceGo]
  rw [if_neg h1, if_neg h2]

theorem balance_invariant (L : List Str) (d n : ℕ) :
    List.countP isEndLine ((balanceGo L d).take n) ≤
      d + List.countP isSubLine ((balanceGo L d).take n) := by
  induction L generalizing d n with
  | nil => simp [balanceGo]
  | cons l rest ih =>
    by_cases h1 : ("subgraph".toList).isPrefixOf (pyStrip l) = true
    · rw [balanceGo_cons_sub rest d h1]
      cases n with
      | zero => simp
      | succ m =>
        rw [List.take_succ_cons,
          List.countP_cons_of_neg isEndLine _
            (by simp [isEndLine_false_of_isSubLine h1]),
          List.countP_cons_of_pos isSubLine _ (show isSubLine l = true from h1)]
        have := ih (d + 1) m
        omega
    · have hsub : isSubLine l = false := by
        rw [show isSubLine l = ("subgraph".toList).isPrefixOf (pyStrip l) from rfl]
        exact Bool.not_eq_true _ ▸ h1
      by_cases h2 : pyStrip l = "end".toList
      · have hend : isEndLine l = true := by simp [isEndLine, h2]
        by_cases hd : d > 0
        · rw [balanceGo_cons_end_pos rest h1 h2 hd]
          cases n with
          | zero => simp
          | succ m =>
            rw [List.take_succ_cons, List.countP_cons_of_pos isEndLine _ hend,
              List.countP_cons_of_neg isSubLine _ (by simp [hsub])]
            have := ih (d - 1) m
            omega
        · rw [balanceGo_cons_end_zero rest h1 h2 hd]
          exact ih d n
      · have hend : isEndLine l = false := by
          rw [show isEndLine l = (pyStrip l == "end".toList) from rfl]
          exact beq_false_of_ne h2
        rw [balanceGo_cons_other rest d h1 h2]
        cases n with
        | zero => simp
        | succ m =>
          rw [List.take_succ_cons, List.countP_cons_of_neg isEndLine _ (by simp [hend]),
            List.countP_cons_of_neg isSubLine _ (by simp [hsub])]
          have := ih d m
          omega

theorem balanceGo_sublist (L : List Str) (d : ℕ) : (balanceGo L d).Sublist L := by
  induction L generalizing d with
  | nil => simp [balanceGo]
  | cons l rest ih =>
    by_cases h1 : ("subgraph".toList).isPrefixOf (pyStrip l) = true
    · rw [balanceGo_cons_sub rest d h1]
      exact (ih (d + 1)).cons₂ l
    · by_cases h2 : pyStrip l = "end".toList
      · by_cases hd : d > 0
        · rw [balanceGo_cons_end_pos rest h1 h2 hd]
          exact (ih (d - 1)).cons₂ l
        · rw [balanceGo_cons_end_zero rest h1 h2 hd]
          exact (ih d).cons l
      · rw [balanceGo_cons_other rest d h1 h2]
        exact (ih d).cons₂ l

/-! ## Relating the final joined-and-stripped output to its line list -/

theorem mem_joinLines_of_mem {x : Char} {l : Str} {L : List Str}
    (hl : l ∈ L) (hx : x ∈ l) : x ∈ joinLines L := by
  induction L with
  | nil => cases hl
  | cons a rest ih =>
    rcases List.mem_cons.mp hl with h | h
    · subst h
      rcases rest with _ | ⟨b, bs⟩
      · simpa [joinLines] using hx
      · rw [joinLines_cons _ (by simp)]
        exact List.mem_append.mpr (Or.inl hx)
    · rcases rest with _ | ⟨b, bs⟩
      · cases h
      · rw [joinLines_cons _ (by simp)]
        exact List.mem_append.mpr (Or.inr (List.mem_cons_of_mem _ (ih h)))

theorem pyLStrip_ne_nil {l : Str} (h : pyStrip l ≠ []) : pyLStrip l ≠ [] := by
  intro hc
  exact h (pyStrip_eq_nil_iff.mpr (pyLStrip_eq_nil_iff.mp hc))

theorem pyRStrip_ne_nil_of_mem {z : Str} {c : Char} (hc : c ∈ z)
    (hw : pyIsSpace c = false) : pyRStrip z ≠ [] := by
  intro h
  rw [pyRStrip_eq_nil_iff] at h
  rw [h c hc] at hw
  cases hw

theorem exists_nonspace_of_nonblank {l : Str} (h : pyStrip l ≠ []) :
    ∃ c ∈ l, pyIsSpace c = false := by
  by_contra hc
  push_neg at hc
  exact h (pyStrip_eq_nil_iff.mpr fun c hm => by
    have := hc c hm
    simpa using this)

theorem splitLines_pyRStrip_joinLines (L : List Str) (hne : L ≠ [])
    (hnl : ∀ l ∈ L, '\n' ∉ l) (hnb : ∀ l ∈ L, pyStrip l ≠ []) :
    (splitLines (pyRStrip (joinLines L))).map pyStrip = L.map pyStrip := by
  induction L with
  | nil => exact absurd rfl hne
  | cons l rest ih =>
    rcases rest with _ | ⟨r, rs⟩
    · have hl : '\n' ∉ l := hnl l (by simp)
      have : '\n' ∉ pyRStrip l := fun hm => hl (mem_of_mem_pyRStrip hm)
      show (splitLines (pyRStrip l)).map pyStrip = [pyStrip l]
      rw [splitLines_of_no_nl this]
      simp [pyStrip_pyRStrip]
    · obtain ⟨c, hcmem, hcw⟩ := exists_nonspace_of_nonblank (hnb r (by simp))
      have hcJ : c ∈ joinLines (r :: rs) := mem_joinLines_of_mem (by simp) hcmem
      have hJ : pyRStrip (joinLines (r :: rs)) ≠ [] := pyRStrip_ne_nil_of_mem hcJ hcw
      rw [joinLines_cons _ (by simp)]
      have hRc : pyRStrip ('\n' :: joinLines (r :: rs)) = '\n' :: pyRStrip (joinLines (r :: rs)) :=
        pyRStrip_cons hJ
      rw [pyRStrip_append l (by rw [hRc]; simp), hRc]
      rw [splitLines_append_nl _ (hnl l (by simp))]
      rw [List.map_cons]
      rw [ih (by simp) (fun x hx => hnl x (List.mem_cons_of_mem _ hx))
        (fun x hx => hnb x (List.mem_cons_of_mem _ hx))]
      simp

theorem splitLines_pyStrip_joinLines (L : List Str) (hne : L ≠ [])
    (hnl : ∀ l ∈ L, '\n' ∉ l) (hnb : ∀ l ∈ L, pyStrip l ≠ []) :
    (splitLines (pyStrip (joinLines L))).map pyStrip = L.map pyStrip := by
  rcases L with _ | ⟨l, rest⟩
  · exact absurd rfl hne
  · rcases rest with _ | ⟨r, rs⟩
    · have hl : '\n' ∉ l := hnl l (by simp)
      have : '\n' ∉ pyStrip l := fun hm => hl (mem_of_mem_pyStrip hm)
      show (splitLines (pyStrip l)).map pyStrip = [pyStrip l]
      rw [splitLines_of_no_nl this]
      simp [pyStrip_idem]
    · obtain ⟨c, hcmem, hcw⟩ := exists_nonspace_of_nonblank (hnb r (by simp))
      have hcJ : c ∈ joinLines (r :: rs) := mem_joinLines_of_mem (by simp) hcmem
      have hJ : pyRStrip (joinLines (r :: rs)) ≠ [] := pyRStrip_ne_nil_of_mem hcJ hcw
      rw [joinLines_cons _ (by simp)]
      show (splitLines (pyRStrip (pyLStrip (l ++ '\n' :: joinLines (r :: rs))))).map pyStrip = _
      rw [pyLStrip_append _ (pyLStrip_ne_nil (hnb l (by simp)))]
      have hRc : pyRStrip ('\n' :: joinLines (r :: rs)) = '\n' :: pyRStrip (joinLines (r :: rs)) :=
        pyRStrip_cons hJ
      rw [pyRStrip_append (pyLStrip l) (by rw [hRc]; simp), hRc]
      have hnlL : '\n' ∉ pyLStrip l := fun hm => hnl l (by simp) (mem_of_mem_pyLStrip hm)
      rw [splitLines_append_nl _ hnlL]
      rw [List.map_cons]
      have h1 : pyStrip (pyLStrip l) = pyStrip l := pyStrip_pyLStrip l
      rw [h1]
      rw [splitLines_pyRStrip_joinLines (r :: rs) (by simp)
        (fun x hx => hnl x (List.mem_cons_of_mem _ hx))
        (fun x hx => hnb x (List.mem_cons_of_mem _ hx))]
      rfl

theorem mem_compactInteriorAux {x : Char} :
    ∀ (s : Str) (b : Bool), x ∈ compactInteriorAux s b → x ∈ s ∨ x = ' '
  | [], b => by simp [compactInteriorAux]
  | ch :: rest, b => by
    intro hx
    by_cases hb : b
    · subst hb
      by_cases hw : pyIsSpace ch
      · simp only [compactInteriorAux, if_pos hw] at hx
        rcases mem_compactInteriorAux rest true hx with h | h
        · exact Or.inl (List.mem_cons_of_mem _ h)
        · exact Or.inr h
      · simp only [compactInteriorAux, if_neg hw] at hx
        rcases List.mem_cons.mp hx with h | h
        · exact Or.inl (by simp [h])
        · rcases mem_compactInteriorAux rest false h with h2 | h2
          · exact Or.inl (List.mem_cons_of_mem _ h2)
          · exact Or.inr h2
    · have hb' : b = false := by simpa using hb
      subst hb'
      by_cases hw : pyIsSpace ch
      · rcases rest with _ | ⟨d, ds⟩
        · simp only [compactInteriorAux, if_pos hw] at hx
          exact Or.inl (by simpa using hx)
        · by_cases hd : pyIsSpace d
          · have heq : compactInteriorAux (ch :: d :: ds) false =
                ' ' :: compactInteriorAux (d :: ds) true := by
              simp [compactInteriorAux, hw, hd]
            rw [heq] at hx
            rcases List.mem_cons.mp hx with h | h
            · exact Or.inr h
            · rcases mem_compactInteriorAux (d :: ds) true h with h2 | h2
              · exact Or.inl (List.mem_cons_of_mem _ h2)
              · exact Or.inr h2
          · have heq : compactInteriorAux (ch :: d :: ds) false =
                ch :: compactInteriorAux (d :: ds) false := by
              simp [compactInteriorAux, hw, hd]
            rw [heq] at hx
            rcases List.mem_cons.mp hx with h | h
            · exact Or.inl (by simp [h])
            · rcases mem_compactInteriorAux (d :: ds) false h with h2 | h2
              · exact Or.inl (List.mem_cons_of_mem _ h2)
              · exact Or.inr h2
      · simp only [compactInteriorAux, if_neg hw] at hx
        rcases List.mem_cons.mp hx with h | h
        · exact Or.inl (by simp [h])
        · rcases mem_compactInteriorAux rest false h with h2 | h2
          · exact Or.inl (List.mem_cons_of_mem _ h2)
          · exact Or.inr h2

theorem mem_compactLine {x : Char} {l : Str} (hx : x ∈ compactLine l) :
    x ∈ l ∨ x = ' ' := by
  unfold compactLine at hx
  rcases List.mem_append.mp hx with h | h
  · exact Or.inl (mem_of_mem_pyRStrip ((List.takeWhile_prefix pyIsSpace).subset h))
  · rcases mem_compactInteriorAux _ false h with h2 | h2
    · exact Or.inl (mem_of_mem_pyRStrip ((List.dropWhile_sublist pyIsSpace).subset h2))
    · exact Or.inr h2

theorem sanitizedLines_no_nl {code : Str} :
    ∀ l ∈ sanitizedLines code, '\n' ∉ l := by
  intro l hl
  unfold sanitizedLines at hl
  have hmap := (List.mem_filter.mp hl).1
  obtain ⟨l', hl', rfl⟩ := List.mem_map.mp hmap
  intro hnl
  rcases mem_compactLine hnl with h | h
  · exact mem_splitLines_no_nl l' hl' h
  · cases h

theorem sanitizedLines_nonblank {code : Str} :
    ∀ l ∈ sanitizedLines code, pyStrip l ≠ [] := by
  intro l hl
  unfold sanitizedLines at hl
  have := (List.mem_filter.mp hl).2
  simpa using this

theorem countP_pyStrip_map (p : Str → Bool) (hp : ∀ z, p (pyStrip z) = p z)
    (xs : List Str) : List.countP p (xs.map pyStrip) = List.countP p xs := by
  rw [List.countP_map]
  exact List.countP_congr fun a _ => by simp [Function.comp, hp a]

theorem isEndLine_pyStrip (z : Str) : isEndLine (pyStrip z) = isEndLine z := by
  unfold isEndLine
  rw [pyStrip_idem]

theorem isSubLine_pyStrip (z : Str) : isSubLine (pyStrip z) = isSubLine z := by
  unfold isSubLine
  rw [pyStrip_idem]

/-- C3: in `sanitize_mermaid`'s output, along every prefix of the line list
the number of `end`-terminator lines never exceeds the number of
`subgraph`-opener lines (the balancer keeps an `end` only when an opener is
still open and drops orphans); in particular the orphan terminator of
`"graph TD\nA-->B\nend\n"` is dropped. -/
theorem C3_subgraph_balance :
    (∀ (code : Str) (n : ℕ),
      List.countP isEndLine ((splitLines (sanitize_mermaid code)).take n) ≤
      List.countP isSubLine ((splitLines (sanitize_mermaid code)).take n)) ∧
    sanitize_mermaid ("graph TD\nA-->B\nend\n".toList) = "graph TD\nA-->B".toList := by
  constructor
  · intro code n
    by_cases hc : code = []
    · subst hc
      show List.countP isEndLine ((splitLines []).take n) ≤ _
      rcases n with _ | m
      · simp
      · have h1 : (splitLines ([] : Str)).take (m + 1) = [[]] := by
          rw [show splitLines ([] : Str) = [[]] from rfl, List.take_succ_cons,
            List.take_nil]
        rw [h1]
        have h0 : List.countP isEndLine [([] : Str)] = 0 := by decide
        rw [h0]
        exact Nat.zero_le _
    · have hout : sanitize_mermaid code =
          pyStrip (joinLines (balanceGo
            ((sanitizedLines code).drop (sanitizeStart code)) 0)) := by
        unfold sanitize_mermaid balanceSubgraphEnds
        rw [if_neg hc]
      set L4 := balanceGo ((sanitizedLines code).drop (sanitizeStart code)) 0 with hL4
      have hsubset : ∀ l ∈ L4, l ∈ sanitizedLines code := by
        intro l hl
        exact List.drop_subset _ _ ((balanceGo_sublist _ 0).subset hl)
      rcases hL4e : L4 with _ | ⟨l0, ls⟩
      · rw [hout, hL4e]
        show List.countP isEndLine ((splitLines (pyStrip (joinLines []))).take n) ≤ _
        rcases n with _ | m
        · simp
        · have h1 : (splitLines (pyStrip (joinLines ([] : List Str)))).take (m + 1) = [[]] := by
            rw [show splitLines (pyStrip (joinLines ([] : List Str))) = [[]] from rfl,
              List.take_succ_cons, List.take_nil]
          rw [h1]
          have h0 : List.countP isEndLine [([] : Str)] = 0 := by decide
          rw [h0]
          exact Nat.zero_le _
      · have hprops : ∀ l ∈ (l0 :: ls), l ∈ sanitizedLines code := hL4e ▸ hsubset
        have hbridge := splitLines_pyStrip_joinLines (l0 :: ls) (by simp)
          (fun l hl => sanitizedLines_no_nl l (hprops l hl))
          (fun l hl => sanitizedLines_nonblank l (hprops l hl))
        rw [hout, hL4e]
        have chain : ∀ (p : Str → Bool), (∀ z, p (pyStrip z) = p z) →
            List.countP p ((splitLines (pyStrip (joinLines (l0 :: ls)))).take n) =
            List.countP p ((l0 :: ls).take n) := by
          intro p hp
          rw [← countP_pyStrip_map p hp
              ((splitLines (pyStrip (joinLines (l0 :: ls)))).take n),
            List.map_take, hbridge, ← List.map_take, countP_pyStrip_map p hp]
        rw [chain isEndLine isEndLine_pyStrip, chain isSubLine isSubLine_pyStrip]
        have hbal := balance_invariant
          ((sanitizedLines code).drop (sanitizeStart code)) 0 n
        rw [← hL4, hL4e] at hbal
        simpa using hbal
  · decide

/-! ## Directive alignment (C5) -/

theorem findIdx?_drop_spec {p : Str → Bool} :
    ∀ (L : List Str) (i j : ℕ), List.findIdx? p L i = some j →
      i ≤ j ∧ ∃ l tl, L.drop (j - i) = l :: tl ∧ p l = true := by
  intro L
  induction L with
  | nil => intro i j h; simp [List.findIdx?] at h
  | cons x xs ih =>
    intro i j h
    rw [List.findIdx?_cons] at h
    by_cases hp : p x
    · rw [if_pos hp] at h
      have hj : j = i := by simpa using h.symm
      subst hj
      exact ⟨le_refl _, x, xs, by simp, hp⟩
    · rw [if_neg hp] at h
      obtain ⟨hle, l, tl, hdrop, hl⟩ := ih (i + 1) j h
      refine ⟨by omega, l, tl, ?_, hl⟩
      have hji : j - i = (j - (i + 1)) + 1 := by omega
      rw [hji, List.drop_succ_cons] 
      exact hdrop

theorem balanceGo_keep_head {l : Str} (rest : List Str) (d : ℕ)
    (h : pyStrip l ≠ "end".toList) :
    ∃ tl, balanceGo (l :: rest) d = l :: tl := by
  by_cases h1 : ("subgraph".toList).isPrefixOf (pyStrip l) = true
  · exact ⟨_, balanceGo_cons_sub rest d h1⟩
  · exact ⟨_, balanceGo_cons_other rest d h1 h⟩

/-- C5 (amended): when some compacted, non-blank line of the sanitize
pipeline's line list matches the directive pattern (trimmed form starting
with a recognized keyword at a word boundary), the first line of
`sanitize_mermaid`'s output matches the directive pattern. -/
theorem C5_directive_alignment (code : Str)
    (h : ∃ l ∈ sanitizedLines code, matchesDirective (pyStrip l) = true) :
    matchesDirective (pyStrip ((splitLines (sanitize_mermaid code)).headD [])) = true := by
  obtain ⟨ld, hld, hpd⟩ := h
  by_cases hc : code = []
  · subst hc
    rw [show sanitizedLines [] = [] from by decide] at hld
    cases hld
  · have hout : sanitize_mermaid code =
        pyStrip (joinLines (balanceGo
          ((sanitizedLines code).drop (sanitizeStart code)) 0)) := by
      unfold sanitize_mermaid balanceSubgraphEnds
      rw [if_neg hc]
    have hfind : ∃ j, List.findIdx? (fun l => matchesDirective (pyStrip l))
        (sanitizedLines code) 0 = some j := by
      rcases hidx : List.findIdx? (fun l => matchesDirective (pyStrip l))
          (sanitizedLines code) 0 with _ | j
      · rw [List.findIdx?_eq_none_iff] at hidx
        rw [hidx ld hld] at hpd
        cases hpd
      · exact ⟨j, rfl⟩
    obtain ⟨j, hj⟩ := hfind
    have hstart : sanitizeStart code = j := by
      unfold sanitizeStart
      rw [hj]
      rfl
    obtain ⟨-, l, tl, hdrop, hl⟩ := findIdx?_drop_spec (sanitizedLines code) 0 j hj
    rw [Nat.sub_zero] at hdrop
    have hnotend : pyStrip l ≠ "end".toList := by
      intro he
      rw [he] at hl
      exact absurd hl (by decide)
    obtain ⟨tl2, hbal⟩ := balanceGo_keep_head tl 0 hnotend
    rw [hstart, hdrop, hbal] at hout
    have hsubset : ∀ x ∈ (l :: tl2), x ∈ sanitizedLines code := by
      intro x hx
      rw [← hbal] at hx
      have hx2 : x ∈ l :: tl := (balanceGo_sublist (l :: tl) 0).subset hx
      rw [← hdrop] at hx2
      exact List.drop_subset _ _ hx2
    have hbridge := splitLines_pyStrip_joinLines (l :: tl2) (by simp)
      (fun y hy => sanitizedLines_no_nl y (hsubset y hy))
      (fun y hy => sanitizedLines_nonblank y (hsubset y hy))
    rw [hout]
    rcases hsplit : splitLines (pyStrip (joinLines (l :: tl2))) with _ | ⟨x, xs⟩
    · exact absurd hsplit (splitLines_ne_nil _)
    · rw [hsplit] at hbridge
      have hx : pyStrip x = pyStrip l := by
        have := congrArg (fun z => z.headD []) hbridge
        simpa using this
      show matchesDirective (pyStrip x) = true
      rw [hx]
      exact hl

/-- C5 counterexample: `"x graph y"` contains the keyword `graph`, yet the
first output line of `sanitize_mermaid` does not start with a recognized
directive keyword — the scan only matches keywords at the start of a
trimmed line. -/
theorem C5_counterexample :
    containsSub ("x graph y".toList) ("graph".toList) = true ∧
    matchesDirective (pyStrip
      ((splitLines (sanitize_mermaid ("x graph y".toList))).headD [])) = false :=
  ⟨by decide, by decide⟩

/-- C5 witness: scenario D — on `"Here is your diagram:\ngraph TD\nA-->B"`
some pipeline line matches the directive pattern, the theorem applies, and
the first output line is exactly `"graph TD"`. -/
theorem C5_directive_alignment_witness :
    matchesDirective (pyStrip ((splitLines (sanitize_mermaid
      ("Here is your diagram:\ngraph TD\nA-->B".toList))).headD [])) = true ∧
    (splitLines (sanitize_mermaid ("Here is your diagram:\ngraph TD\nA-->B".toList))).headD []
      = "graph TD".toList :=
  ⟨C5_directive_alignment _ (by decide), by decide⟩

/-! ## Escaped quotes (C8) -/

/-- Escape-aware quoted-span scan described by the spec: a double quote
toggles the in-quote flag unless the previous character is a backslash; the
result is `true` exactly when some newline occurs while the flag is set. -/
def escQuoteNLBad : Str → Bool → Option Char → Bool
  | [], _, _ => false
  | ch :: rest, inQuote, prev =>
    if ch = '"' ∧ prev ≠ some '\\' then escQuoteNLBad rest (!inQuote) (some ch)
    else if inQuote ∧ ch = '\n' then true
    else escQuoteNLBad rest inQuote (some ch)

/-- C8 counterexample: `sanitize_mermaid`'s regex-based quote pass pairs
quotes consecutively with no regard for backslash escapes, so in
`A --> "hello \"x⏎y\" bye"` the escaped quote terminates the span and the
newline before the true closing quote survives — the output still has a
newline at an escape-aware in-quote position. -/
theorem C8_counterexample :
    escQuoteNLBad
      (sanitize_mermaid ("graph TD\nA --> \"hello \\\"x\ny\\\" bye\"".toList))
      false none = true := by
  decide

theorem toolsQuoteGo_no_esc_nl :
    ∀ (s : Str) (q : Bool) (p1 p2 : Option Char),
      (p1 = some '\\' ↔ p2 = some '\\') →
      escQuoteNLBad (toolsQuoteGo s q p1) q p2 = false := by
  intro s
  induction s with
  | nil => intro q p1 p2 _; rfl
  | cons ch rest ih =>
    intro q p1 p2 hiff
    by_cases h1 : ch = '"' ∧ p1 ≠ some '\\'
    · rw [show toolsQuoteGo (ch :: rest) q p1 =
          ch :: toolsQuoteGo rest (!q) (some ch) from by
        simp only [toolsQuoteGo]; rw [if_pos h1]]
      have h2 : ch = '"' ∧ p2 ≠ some '\\' :=
        ⟨h1.1, fun hp2 => h1.2 (hiff.mpr hp2)⟩
      rw [show escQuoteNLBad (ch :: toolsQuoteGo rest (!q) (some ch)) q p2 =
          escQuoteNLBad (toolsQuoteGo rest (!q) (some ch)) (!q) (some ch) from by
        simp only [escQuoteNLBad]; rw [if_pos h2]]
      exact ih (!q) (some ch) (some ch) Iff.rfl
    · by_cases h2 : q = true ∧ ch = '\n'
      · rw [show toolsQuoteGo (ch :: rest) q p1 =
            ' ' :: toolsQuoteGo rest q (some ch) from by
          simp only [toolsQuoteGo]; rw [if_neg h1, if_pos h2]]
        have hs1 : ¬ (' ' = '"' ∧ p2 ≠ some '\\') := fun hcon => by
          cases hcon.1
        have hs2 : ¬ (q = true ∧ ' ' = '\n') := fun hcon => by
          cases hcon.2
        rw [show escQuoteNLBad (' ' :: toolsQuoteGo rest q (some ch)) q p2 =
            escQuoteNLBad (toolsQuoteGo rest q (some ch)) q (some ' ') from by
          simp only [escQuoteNLBad]; rw [if_neg hs1, if_neg hs2]]
        have hch : ch = '\n' := h2.2
        exact ih q (some ch) (some ' ')
          (by constructor <;> intro hcon <;> (rw [hch] at * ; simp_all))
      · rw [show toolsQuoteGo (ch :: rest) q p1 =
            ch :: toolsQuoteGo rest q (some ch) from by
          simp only [toolsQuoteGo]; rw [if_neg h1, if_neg h2]]
        have hs1 : ¬ (ch = '"' ∧ p2 ≠ some '\\') := by
          intro hcon
          by_cases hp1 : p1 = some '\\'
          · exact hcon.2 (hiff.mp hp1)
          · exact h1 ⟨hcon.1, hp1⟩
        rw [show escQuoteNLBad (ch :: toolsQuoteGo rest q (some ch)) q p2 =
            escQuoteNLBad (toolsQuoteGo rest q (some ch)) q (some ch) from by
          simp only [escQuoteNLBad]; rw [if_neg hs1, if_neg h2]]
        exact ih q (some ch) (some ch) Iff.rfl

/-- C8 (amended): the escape handling described by the claim lives in the
scanner-based `_sanitize_mermaid` of `agents/tools.py`, not in the
regex-based `sanitize_mermaid`: in the scanner's quoted-label pass a quote
immediately preceded by a backslash does not toggle the in-quote state, and
every newline inside an (escape-aware) quoted span is replaced by a space,
so the pass's output never has a newline at an in-quote position. -/
theorem C8_tools_quote_pass_escape_aware :
    ∀ s : Str, escQuoteNLBad (toolsQuotePass s) false none = false := by
  intro s
  exact toolsQuoteGo_no_esc_nl s false none none Iff.rfl

/-! ## Class-diagram reconstruction (C4) -/

/-- The member filter of `_fix_class_diagram_syntax` (line 254): a line is a
valid class member when it contains a `:` separator or ends with `()`. -/
def validMember (st : Str) : Bool :=
  st.contains ':' || ("()".toList).isSuffixOf st

theorem fixGo_closer {nm : Str} (acc : List Str) (closer : Str)
    (rest : List Str) (hcl : pyStrip closer = "\x7d".toList) :
    fixGo (closer :: rest) true acc (some nm) =
      flushClass nm acc ++ fixGo rest false [] none := by
  simp only [fixGo]
  rw [hcl]
  rw [if_neg (show ¬("\x7d".toList = ([] : Str)) by decide),
    if_neg (show ¬("\x7d".toList = "classDiagram".toList) by decide),
    if_neg (show ¬(("class ".toList).isPrefixOf "\x7d".toList = true) by decide),
    if_pos (show "\x7d".toList = "\x7d".toList ∧ True from ⟨rfl, trivial⟩)]

theorem fixGo_interior {nm : Str} :
    ∀ (interior : List Str) (acc : List Str),
      (∀ l ∈ interior, ¬ ("class ".toList).isPrefixOf (pyStrip l) = true ∧
        pyStrip l ≠ "\x7d".toList ∧ pyStrip l ≠ "classDiagram".toList) →
      fixGo interior true acc (some nm) =
        flushClass nm (acc ++ (interior.map pyStrip).filter validMember) := by
  intro interior
  induction interior with
  | nil =>
    intro acc _
    simp [fixGo]
  | cons l tl ih =>
    intro acc hint
    obtain ⟨hcls, hbrace, hcd⟩ := hint l (by simp)
    have htl := fun x hx => hint x (List.mem_cons_of_mem _ hx)
    by_cases hst : pyStrip l = []
    · rw [show fixGo (l :: tl) true acc (some nm) = fixGo tl true acc (some nm) from by
        simp only [fixGo]; rw [if_pos hst]]
      rw [ih acc htl]
      have : validMember (pyStrip l) = false := by rw [hst]; decide
      simp [this]
    · by_cases hvm : validMember (pyStrip l) = true
      · rw [show fixGo (l :: tl) true acc (some nm) =
            fixGo tl true (acc ++ [pyStrip l]) (some nm) from by
          simp only [fixGo]
          rw [if_neg hst, if_neg hcd, if_neg hcls,
            if_neg (fun hcon => hbrace hcon.1), if_pos trivial,
            if_pos (show ((pyStrip l).contains ':' ||
              ("()".toList).isSuffixOf (pyStrip l)) = true from hvm)]]
        rw [ih (acc ++ [pyStrip l]) htl]
        rw [List.map_cons, List.filter_cons_of_pos hvm]
        simp
      · rw [show fixGo (l :: tl) true acc (some nm) =
            fixGo tl true acc (some nm) from by
          simp only [fixGo]
          rw [if_neg hst, if_neg hcd, if_neg hcls,
            if_neg (fun hcon => hbrace hcon.1), if_pos trivial,
            if_neg (show ¬ (((pyStrip l).contains ':' ||
              ("()".toList).isSuffixOf (pyStrip l)) = true) from hvm)]]
        rw [ih acc htl]
        rw [List.map_cons, List.filter_cons_of_neg hvm]

theorem fixGo_opener {nm : Str} (opener : Str) (body : List Str)
    (hop : ("class ".toList).isPrefixOf (pyStrip opener) = true)
    (hdecl : classDeclMatch (pyStrip opener) = some (nm, true)) :
    fixGo (opener :: body) false [] none = fixGo body true [] (some nm) := by
  have hne : pyStrip opener ≠ [] := by
    intro h
    rw [h] at hop
    exact absurd hop (by decide)
  have hncd : pyStrip opener ≠ "classDiagram".toList := by
    intro h
    rw [h] at hop
    exact absurd hop (by decide)
  simp only [fixGo]
  rw [if_neg hne, if_neg hncd, if_pos hop, hdecl]
  simp

theorem fixGo_member_step {nm : Str} (l : Str) (tlz : List Str) (acc : List Str)
    (hcls : ¬ ("class ".toList).isPrefixOf (pyStrip l) = true)
    (hbrace : pyStrip l ≠ "\x7d".toList)
    (hcd : pyStrip l ≠ "classDiagram".toList) :
    fixGo (l :: tlz) true acc (some nm) =
      fixGo tlz true
        (if validMember (pyStrip l) = true then acc ++ [pyStrip l] else acc)
        (some nm) := by
  by_cases hst : pyStrip l = []
  · have hvm : validMember (pyStrip l) = false := by rw [hst]; decide
    rw [show fixGo (l :: tlz) true acc (some nm) = fixGo tlz true acc (some nm) from by
      simp only [fixGo]; rw [if_pos hst]]
    rw [hvm]
    simp
  · by_cases hvm : validMember (pyStrip l) = true
    · rw [show fixGo (l :: tlz) true acc (some nm) =
          fixGo tlz true (acc ++ [pyStrip l]) (some nm) from by
        simp only [fixGo]
        rw [if_neg hst, if_neg hcd, if_neg hcls,
          if_neg (fun hcon => hbrace hcon.1), if_pos trivial,
          if_pos (show ((pyStrip l).contains ':' ||
            ("()".toList).isSuffixOf (pyStrip l)) = true from hvm)]]
      rw [if_pos hvm]
    · rw [show fixGo (l :: tlz) true acc (some nm) =
          fixGo tlz true acc (some nm) from by
        simp only [fixGo]
        rw [if_neg hst, if_neg hcd, if_neg hcls,
          if_neg (fun hcon => hbrace hcon.1), if_pos trivial,
          if_neg (show ¬ (((pyStrip l).contains ':' ||
            ("()".toList).isSuffixOf (pyStrip l)) = true) from hvm)]]
      rw [if_neg hvm]

theorem fixGo_interior_closer {nm : Str} (closer : Str) (rest : List Str)
    (hcl : pyStrip closer = "\x7d".toList) :
    ∀ (interior : List Str) (acc : List Str),
      (∀ l ∈ interior, ¬ ("class ".toList).isPrefixOf (pyStrip l) = true ∧
        pyStrip l ≠ "\x7d".toList ∧ pyStrip l ≠ "classDiagram".toList) →
      fixGo (interior ++ closer :: rest) true acc (some nm) =
        flushClass nm (acc ++ (interior.map pyStrip).filter validMember) ++
          fixGo rest false [] none := by
  intro interior
  induction interior with
  | nil =>
    intro acc _
    rw [List.nil_append, fixGo_closer acc closer rest hcl]
    simp
  | cons l tl ih =>
    intro acc hint
    obtain ⟨hcls, hbrace, hcd⟩ := hint l (by simp)
    have htl := fun x hx => hint x (List.mem_cons_of_mem _ hx)
    rw [List.cons_append, fixGo_member_step l (tl ++ closer :: rest) acc hcls hbrace hcd]
    by_cases hvm : validMember (pyStrip l) = true
    · rw [if_pos hvm, ih (acc ++ [pyStrip l]) htl,
        List.map_cons, List.filter_cons_of_pos hvm]
      simp
    · rw [if_neg hvm, ih acc htl, List.map_cons, List.filter_cons_of_neg hvm]

/-- C4 (amended): in the class-diagram reconstructor, a block opened by a
line whose trimmed form is a braced class declaration `class <Name> {` and
closed by a `}` line keeps exactly those interior lines that contain a `:`
separator or end with `()` as its flushed members, and drops every other
interior line which is not itself a `class` declaration, a `}`, or the
literal `classDiagram` directive (a `classDiagram` interior line is
re-emitted outside the block, see the counterexample); a block still open
at end of input is force-flushed the same way; and scenario C holds:
sanitizing `"classDiagram\nclass Foo \x7b\nname: string\nbar()\nbadline\n\x7d\n"`
yields a `class Foo` block with exactly the members `name: string` and
`bar()`. -/
theorem C4_class_block_members :
    (∀ (nm opener : Str) (interior : List Str) (closer : Str) (rest : List Str),
      ("class ".toList).isPrefixOf (pyStrip opener) = true →
      classDeclMatch (pyStrip opener) = some (nm, true) →
      (∀ l ∈ interior, ¬ ("class ".toList).isPrefixOf (pyStrip l) = true ∧
        pyStrip l ≠ "\x7d".toList ∧ pyStrip l ≠ "classDiagram".toList) →
      pyStrip closer = "\x7d".toList →
      fixGo (opener :: (interior ++ closer :: rest)) false [] none =
        flushClass nm ((interior.map pyStrip).filter validMember) ++
          fixGo rest false [] none) ∧
    (∀ (nm opener : Str) (interior : List Str),
      ("class ".toList).isPrefixOf (pyStrip opener) = true →
      classDeclMatch (pyStrip opener) = some (nm, true) →
      (∀ l ∈ interior, ¬ ("class ".toList).isPrefixOf (pyStrip l) = true ∧
        pyStrip l ≠ "\x7d".toList ∧ pyStrip l ≠ "classDiagram".toList) →
      fixGo (opener :: interior) false [] none =
        flushClass nm ((interior.map pyStrip).filter validMember)) ∧
    sanitize_mermaid ("classDiagram\nclass Foo \x7b\nname: string\nbar()\nbadline\n\x7d\n".toList) =
      "classDiagram\n    class Foo \x7b\n        name: string\n        bar()\n    \x7d".toList := by
  refine ⟨?_, ?_, by decide⟩
  · intro nm opener interior closer rest hop hdecl hint hcl
    rw [fixGo_opener opener (interior ++ closer :: rest) hop hdecl]
    rw [fixGo_interior_closer closer rest hcl interior [] hint]
    simp
  · intro nm opener interior hop hdecl hint
    rw [fixGo_opener opener interior hop hdecl]
    rw [fixGo_interior interior [] hint]
    simp

/-- C4 witness: the block-with-closer conjunct applied to the concrete block
`class Foo { name: string / bar() / badline }`. -/
theorem C4_class_block_members_witness :
    fixGo ("class Foo \x7b".toList ::
      (["name: string".toList, "bar()".toList, "badline".toList] ++
        "\x7d".toList :: [])) false [] none =
      flushClass "Foo".toList
        ((["name: string".toList, "bar()".toList, "badline".toList].map pyStrip).filter
          validMember) ++ fixGo [] false [] none :=
  C4_class_block_members.1 "Foo".toList "class Foo \x7b".toList
    ["name: string".toList, "bar()".toList, "badline".toList] "\x7d".toList []
    (by decide) (by decide) (by decide) (by decide)

/-- C4 counterexample: an interior line that is exactly `classDiagram` is
neither kept as a member nor dropped — it escapes the block and is
re-emitted at top level, so "every other interior line is dropped" fails as
stated: the output contains the `classDiagram` line twice. -/
theorem C4_counterexample :
    sanitize_mermaid ("classDiagram\nclass Foo \x7b\nclassDiagram\n\x7d".toList) =
      "classDiagram\nclassDiagram\n    class Foo".toList ∧
    List.countP (fun l => pyStrip l == "classDiagram".toList)
      (splitLines (sanitize_mermaid
        ("classDiagram\nclass Foo \x7b\nclassDiagram\n\x7d".toList))) = 2 :=
  ⟨by decide, by decide⟩

/-! ## Character tracking (C10) -/

theorem mem_collapseWSAux {x : Char} :
    ∀ (s : Str) (b : Bool), x ∈ collapseWSAux s b → x ∈ s ∨ x = ' ' := by
  intro s
  induction s with
  | nil => intro b h; simp [collapseWSAux] at h
  | cons ch rest ih =>
    intro b h
    by_cases hw : pyIsSpace ch
    · by_cases hb : b = true
      · subst hb
        rw [show collapseWSAux (ch :: rest) true = collapseWSAux rest true from by
          simp [collapseWSAux, hw]] at h
        rcases ih true h with h2 | h2
        · exact Or.inl (List.mem_cons_of_mem _ h2)
        · exact Or.inr h2
      · have hb' : b = false := by simpa using hb
        subst hb'
        rw [show collapseWSAux (ch :: rest) false = ' ' :: collapseWSAux rest true from by
          simp [collapseWSAux, hw]] at h
        rcases List.mem_cons.mp h with h2 | h2
        · exact Or.inr h2
        · rcases ih true h2 with h3 | h3
          · exact Or.inl (List.mem_cons_of_mem _ h3)
          · exact Or.inr h3
    · rw [show collapseWSAux (ch :: rest) b = ch :: collapseWSAux rest false from by
        simp [collapseWSAux, hw]] at h
      rcases List.mem_cons.mp h with h2 | h2
      · exact Or.inl (by simp [h2])
      · rcases ih false h2 with h3 | h3
        · exact Or.inl (List.mem_cons_of_mem _ h3)
        · exact Or.inr h3

theorem mem_cleanInner {x : Char} {s : Str} (h : x ∈ cleanInner s) :
    x ∈ s ∨ x = ' ' := by
  unfold cleanInner collapseWS at h
  rcases mem_collapseWSAux _ false h with h2 | h2
  · exact Or.inl (mem_of_mem_pyStrip h2)
  · exact Or.inr h2

theorem mem_cleanDelimsAux {o c x : Char} :
    ∀ (s : Str) (st : Option Str), x ∈ cleanDelimsAux o c s st →
      x ∈ s ∨ x = ' ' ∨ x = o ∨ x = c ∨ ∃ buf, st = some buf ∧ x ∈ buf := by
  intro s
  induction s with
  | nil =>
    intro st h
    rcases st with _ | buf
    · simp [cleanDelimsAux] at h
    · rw [show cleanDelimsAux o c [] (some buf) = o :: buf.reverse from rfl] at h
      rcases List.mem_cons.mp h with h2 | h2
      · exact Or.inr (Or.inr (Or.inl h2))
      · exact Or.inr (Or.inr (Or.inr (Or.inr ⟨buf, rfl, List.mem_reverse.mp h2⟩)))
  | cons ch rest ih =>
    intro st h
    rcases st with _ | buf
    · by_cases hch : ch = o
      · rw [show cleanDelimsAux o c (ch :: rest) none =
            cleanDelimsAux o c rest (some []) from by
          simp only [cleanDelimsAux]; rw [if_pos hch]] at h
        rcases ih (some []) h with h2 | h2 | h2 | h2 | ⟨buf, heq, hb⟩
        · exact Or.inl (List.mem_cons_of_mem _ h2)
        · exact Or.inr (Or.inl h2)
        · exact Or.inr (Or.inr (Or.inl h2))
        · exact Or.inr (Or.inr (Or.inr (Or.inl h2)))
        · obtain rfl : buf = [] := (Option.some_inj.mp heq).symm
          exact absurd hb (List.not_mem_nil x)
      · rw [show cleanDelimsAux o c (ch :: rest) none =
            ch :: cleanDelimsAux o c rest none from by
          simp only [cleanDelimsAux]; rw [if_neg hch]] at h
        rcases List.mem_cons.mp h with h2 | h2
        · exact Or.inl (by simp [h2])
        · rcases ih none h2 with h3 | h3 | h3 | h3 | ⟨buf, hbe, _⟩
          · exact Or.inl (List.mem_cons_of_mem _ h3)
          · exact Or.inr (Or.inl h3)
          · exact Or.inr (Or.inr (Or.inl h3))
          · exact Or.inr (Or.inr (Or.inr (Or.inl h3)))
          · cases hbe
    · by_cases hc1 : ch = c
      · rw [show cleanDelimsAux o c (ch :: rest) (some buf) =
            o :: (cleanInner buf.reverse ++ c :: cleanDelimsAux o c rest none) from by
          simp only [cleanDelimsAux]; rw [if_pos hc1]] at h
        rcases List.mem_cons.mp h with h2 | h2
        · exact Or.inr (Or.inr (Or.inl h2))
        · rcases List.mem_append.mp h2 with h3 | h3
          · rcases mem_cleanInner h3 with h4 | h4
            · exact Or.inr (Or.inr (Or.inr (Or.inr
                ⟨buf, rfl, List.mem_reverse.mp h4⟩)))
            · exact Or.inr (Or.inl h4)
          · rcases List.mem_cons.mp h3 with h4 | h4
            · exact Or.inr (Or.inr (Or.inr (Or.inl h4)))
            · rcases ih none h4 with h5 | h5 | h5 | h5 | ⟨buf2, hbe, _⟩
              · exact Or.inl (List.mem_cons_of_mem _ h5)
              · exact Or.inr (Or.inl h5)
              · exact Or.inr (Or.inr (Or.inl h5))
              · exact Or.inr (Or.inr (Or.inr (Or.inl h5)))
              · cases hbe
      · by_cases hc2 : ch = o
        · rw [show cleanDelimsAux o c (ch :: rest) (some buf) =
              o :: buf.reverse ++ cleanDelimsAux o c rest (some []) from by
            simp only [cleanDelimsAux]; rw [if_neg hc1, if_pos hc2]] at h
          rcases List.mem_append.mp h with h2 | h2
          · rcases List.mem_cons.mp h2 with h3 | h3
            · exact Or.inr (Or.inr (Or.inl h3))
            · exact Or.inr (Or.inr (Or.inr (Or.inr
                ⟨buf, rfl, List.mem_reverse.mp h3⟩)))
          · rcases ih (some []) h2 with h3 | h3 | h3 | h3 | ⟨buf2, hbe, hb⟩
            · exact Or.inl (List.mem_cons_of_mem _ h3)
            · exact Or.inr (Or.inl h3)
            · exact Or.inr (Or.inr (Or.inl h3))
            · exact Or.inr (Or.inr (Or.inr (Or.inl h3)))
            · obtain rfl : buf2 = [] := (Option.some_inj.mp hbe).symm
              exact absurd hb (List.not_mem_nil x)
        · rw [show cleanDelimsAux o c (ch :: rest) (some buf) =
              cleanDelimsAux o c rest (some (ch :: buf)) from by
            simp only [cleanDelimsAux]; rw [if_neg hc1, if_neg hc2]] at h
          rcases ih (some (ch :: buf)) h with h2 | h2 | h2 | h2 | ⟨buf2, hbe, hb⟩
          · exact Or.inl (List.mem_cons_of_mem _ h2)
          · exact Or.inr (Or.inl h2)
          · exact Or.inr (Or.inr (Or.inl h2))
          · exact Or.inr (Or.inr (Or.inr (Or.inl h2)))
          · obtain rfl : buf2 = ch :: buf := (Option.some_inj.mp hbe).symm
            rcases List.mem_cons.mp hb with h3 | h3
            · exact Or.inl (by simp [h3])
            · exact Or.inr (Or.inr (Or.inr (Or.inr ⟨buf, rfl, h3⟩)))

theorem mem_cleanDelims {o c x : Char} {s : Str}
    (h : x ∈ cleanDelims o c s) : x ∈ s ∨ x = ' ' ∨ x = o ∨ x = c := by
  rcases mem_cleanDelimsAux s none h with h2 | h2 | h2 | h2 | ⟨_, hbe, _⟩
  · exact Or.inl h2
  · exact Or.inr (Or.inl h2)
  · exact Or.inr (Or.inr (Or.inl h2))
  · exact Or.inr (Or.inr (Or.inr h2))
  · cases hbe

theorem mem_of_mem_splitLines {x : Char} :
    ∀ {s : Str} {l : Str}, l ∈ splitLines s → x ∈ l → x ∈ s := by
  intro s
  induction s with
  | nil => intro l hl hx; simp [splitLines] at hl; subst hl; cases hx
  | cons ch rest ih =>
    intro l hl hx
    by_cases hc : ch = '\n'
    · rw [show splitLines (ch :: rest) = [] :: splitLines rest from by
        simp [splitLines, hc]] at hl
      rcases List.mem_cons.mp hl with h2 | h2
      · subst h2; cases hx
      · exact List.mem_cons_of_mem _ (ih h2 hx)
    · rcases hs : splitLines rest with _ | ⟨t, ls⟩
      · exact absurd hs (splitLines_ne_nil rest)
      · rw [show splitLines (ch :: rest) = (ch :: t) :: ls from by
          simp only [splitLines, if_neg hc, hs]] at hl
        rcases List.mem_cons.mp hl with h2 | h2
        · subst h2
          rcases List.mem_cons.mp hx with h3 | h3
          · exact List.mem_cons.mpr (Or.inl h3)
          · exact List.mem_cons_of_mem _
              (ih (by rw [hs]; exact List.mem_cons_self _ _) h3)
        · exact List.mem_cons_of_mem _
            (ih (by rw [hs]; exact List.mem_cons_of_mem _ h2) hx)

theorem mem_joinLines {x : Char} :
    ∀ {L : List Str}, x ∈ joinLines L → (∃ l ∈ L, x ∈ l) ∨ x = '\n' := by
  intro L
  induction L with
  | nil => intro h; simp [joinLines] at h
  | cons l rest ih =>
    intro h
    rcases rest with _ | ⟨r, rs⟩
    · exact Or.inl ⟨l, by simp, by simpa [joinLines] using h⟩
    · rw [joinLines_cons _ (by simp)] at h
      rcases List.mem_append.mp h with h2 | h2
      · exact Or.inl ⟨l, by simp, h2⟩
      · rcases List.mem_cons.mp h2 with h3 | h3
        · exact Or.inr h3
        · rcases ih h3 with ⟨l2, hl2, hx2⟩ | h4
          · exact Or.inl ⟨l2, List.mem_cons_of_mem _ hl2, hx2⟩
          · exact Or.inr h4

theorem no_cr_replaceCR (z : Str) : '\r' ∉ replaceCR z := by
  intro h
  unfold replaceCR at h
  obtain ⟨x, _, hx⟩ := List.mem_map.mp h
  by_cases hxr : x = '\r'
  · rw [if_pos hxr] at hx
    cases hx
  · rw [if_neg hxr] at hx
    exact hxr hx

theorem mem_wsRunToLastNL {x : Char} {r body : Str}
    (h : wsRunToLastNL r = some body) (hx : x ∈ body) : x ∈ r := by
  unfold wsRunToLastNL at h
  by_cases hc : (r.takeWhile pyIsSpace).contains '\n'
  · rw [if_pos hc] at h
    have hb := Option.some_inj.mp h
    rw [← hb] at hx
    exact List.drop_subset _ r hx
  · rw [if_neg hc] at h
    cases h

theorem mem_stripMermaidHeader {x : Char} {s : Str}
    (hx : x ∈ stripMermaidHeader s) : x ∈ s := by
  unfold stripMermaidHeader at hx
  by_cases h1 : ("```".toList).isPrefixOf s = true
  · rw [if_pos h1] at hx
    by_cases h2 : ciPrefix "mermaid".toList ((s.drop 3).dropWhile pyIsSpace) = true
    · rw [if_pos h2] at hx
      rcases hw : wsRunToLastNL (((s.drop 3).dropWhile pyIsSpace).drop 7) with _ | body
      · rw [hw] at hx
        exact hx
      · rw [hw] at hx
        have := mem_wsRunToLastNL hw hx
        exact List.drop_subset _ s
          ((List.dropWhile_sublist pyIsSpace).subset (List.drop_subset _ _ this))
    · rw [if_neg h2] at hx
      exact hx
  · rw [if_neg h1] at hx
    exact hx

theorem mem_stripGenericHeader {x : Char} {s : Str}
    (hx : x ∈ stripGenericHeader s) : x ∈ s := by
  unfold stripGenericHeader at hx
  by_cases h1 : ("```".toList).isPrefixOf s = true
  · rw [if_pos h1] at hx
    rcases hw : wsRunToLastNL (s.drop 3) with _ | body
    · rw [hw] at hx
      exact hx
    · rw [hw] at hx
      exact List.drop_subset _ s (mem_wsRunToLastNL hw hx)
  · rw [if_neg h1] at hx
    exact hx

theorem mem_stripTrailingFence {x : Char} :
    ∀ {s : Str}, x ∈ stripTrailingFence s → x ∈ s := by
  intro s
  induction s with
  | nil => intro hx; simp [stripTrailingFence] at hx
  | cons ch rest ih =>
    intro hx
    unfold stripTrailingFence at hx
    by_cases hcond : ch = '\n' ∧ ("```".toList).isPrefixOf rest = true ∧
        (rest.drop 3).all pyIsSpace = true
    · rw [if_pos hcond] at hx
      cases hx
    · rw [if_neg hcond] at hx
      rcases List.mem_cons.mp hx with h2 | h2
      · simp [h2]
      · exact List.mem_cons_of_mem _ (ih h2)

theorem mem_stripFences {x : Char} {s : Str} (hx : x ∈ stripFences s) : x ∈ s := by
  unfold stripFences at hx
  by_cases h1 : ("```".toList).isPrefixOf s = true
  · rw [if_pos h1] at hx
    exact mem_stripMermaidHeader (mem_stripGenericHeader
      (mem_stripTrailingFence (mem_of_mem_pyStrip hx)))
  · rw [if_neg h1] at hx
    exact hx

theorem classDeclMatch_chars {st nm : Str} {b : Bool}
    (h : classDeclMatch st = some (nm, b)) : ∀ x ∈ nm, x ∈ st := by
  intro x hx
  have hsub : nm = ((st.drop 5).dropWhile pyIsSpace).takeWhile isWordChar := by
    simp only [classDeclMatch] at h
    split at h
    · split at h
      · cases h
      · split at h
        · cases h
        · split at h
          · exact (congrArg Prod.fst (Option.some_inj.mp h)).symm
          · split at h
            · split at h
              · exact (congrArg Prod.fst (Option.some_inj.mp h)).symm
              · cases h
            · cases h
    · cases h
  rw [hsub] at hx
  exact List.drop_subset _ st
    ((List.dropWhile_sublist pyIsSpace).subset
      ((List.takeWhile_prefix isWordChar).subset hx))

theorem no_cr_flushClass {nm : Str} {content : List Str}
    (hnm : '\r' ∉ nm) (hct : ∀ cl ∈ content, '\r' ∉ cl) :
    ∀ out ∈ flushClass nm content, '\r' ∉ out := by
  intro out hout hcr
  unfold flushClass at hout
  by_cases hc : content = []
  · rw [if_pos hc] at hout
    rcases List.mem_cons.mp hout with h2 | h2
    · rw [h2] at hcr
      rcases List.mem_append.mp hcr with h3 | h3
      · exact absurd h3 (show '\r' ∉ "    class ".toList by decide)
      · exact hnm h3
    · cases h2
  · rw [if_neg hc] at hout
    rcases List.mem_cons.mp hout with h2 | h2
    · rw [h2] at hcr
      rcases List.mem_append.mp hcr with h3 | h3
      · rcases List.mem_append.mp h3 with h4 | h4
        · exact absurd h4 (show '\r' ∉ "    class ".toList by decide)
        · exact hnm h4
      · exact absurd h3 (show '\r' ∉ " \x7b".toList by decide)
    · rcases List.mem_append.mp h2 with h3 | h3
      · obtain ⟨cl, hcl, hout2⟩ := List.mem_map.mp h3
        rw [← hout2] at hcr
        rcases List.mem_append.mp hcr with h4 | h4
        · exact absurd h4 (show '\r' ∉ "        ".toList by decide)
        · exact hct cl hcl h4
      · rcases List.mem_cons.mp h3 with h4 | h4
        · rw [h4] at hcr
          exact absurd hcr (show '\r' ∉ "    \x7d".toList by decide)
        · cases h4

theorem fixGo_no_cr :
    ∀ (lines : List Str) (inside : Bool) (content : List Str) (name : Option Str),
      (∀ l ∈ lines, '\r' ∉ l) →
      (∀ cl ∈ content, '\r' ∉ cl) →
      (∀ nm, name = some nm → '\r' ∉ nm) →
      ∀ out ∈ fixGo lines inside content name, '\r' ∉ out := by
  intro lines
  induction lines with
  | nil =>
    intro inside content name _ hct hnm out hout
    rcases inside with _ | _
    · cases hout
    · rcases name with _ | nm
      · cases hout
      · exact no_cr_flushClass (hnm nm rfl) hct out hout
  | cons l rest ih =>
    intro inside content name hlines hct hnm out hout
    have hl : '\r' ∉ l := hlines l (by simp)
    have hst : '\r' ∉ pyStrip l := fun hm => hl (mem_of_mem_pyStrip hm)
    have hrest : ∀ x ∈ rest, '\r' ∉ x := fun x hx => hlines x (List.mem_cons_of_mem _ hx)
    by_cases h1 : pyStrip l = []
    · rw [show fixGo (l :: rest) inside content name =
          fixGo rest inside content name from by
        simp only [fixGo]; rw [if_pos h1]] at hout
      exact ih inside content name hrest hct hnm out hout
    · by_cases h2 : pyStrip l = "classDiagram".toList
      · rw [show fixGo (l :: rest) inside content name =
            pyStrip l :: fixGo rest inside content name from by
          simp only [fixGo]; rw [if_neg h1, if_pos h2]] at hout
        rcases List.mem_cons.mp hout with h3 | h3
        · rw [h3]; exact hst
        · exact ih inside content name hrest hct hnm out h3
      · by_cases h3 : ("class ".toList).isPrefixOf (pyStrip l) = true
        · have hpre : ∀ nm, name = some nm → inside = true →
              ∀ p ∈ flushClass nm content, '\r' ∉ p := fun nm hnme _ =>
            no_cr_flushClass (hnm nm hnme) hct
          rcases hdm : classDeclMatch (pyStrip l) with _ | ⟨nm', hasB⟩
          · rcases name with _ | nm
            · rw [show fixGo (l :: rest) inside content none =
                  fixGo rest inside content none from by
                simp only [fixGo]; rw [if_neg h1, if_neg h2, if_pos h3, hdm]; simp] at hout
              exact ih inside content none hrest hct (by simp) out hout
            · rcases inside with _ | _
              · rw [show fixGo (l :: rest) false content (some nm) =
                    fixGo rest false content (some nm) from by
                  simp only [fixGo]; rw [if_neg h1, if_neg h2, if_pos h3, hdm]; simp] at hout
                exact ih false content (some nm) hrest hct hnm out hout
              · rw [show fixGo (l :: rest) true content (some nm) =
                    flushClass nm content ++ fixGo rest true [] (some nm) from by
                  simp only [fixGo]; rw [if_neg h1, if_neg h2, if_pos h3, hdm]; simp] at hout
                rcases List.mem_append.mp hout with h4 | h4
                · exact hpre nm rfl rfl out h4
                · exact ih true [] (some nm) hrest (by simp) hnm out h4
          · have hnm' : '\r' ∉ nm' := fun hm =>
              hst (classDeclMatch_chars hdm _ hm)
            rcases hasB with _ | _
            · -- bare declaration
              rcases name with _ | nm
              · rw [show fixGo (l :: rest) inside content none =
                    ("    class ".toList ++ nm') :: fixGo rest false content none from by
                  simp only [fixGo]; rw [if_neg h1, if_neg h2, if_pos h3, hdm]; simp] at hout
                rcases List.mem_cons.mp hout with h4 | h4
                · rw [h4]
                  intro hm
                  rcases List.mem_append.mp hm with h5 | h5
                  · exact absurd h5 (show '\r' ∉ "    class ".toList by decide)
                  · exact hnm' h5
                · exact ih false content none hrest hct (by simp) out h4
              · rcases inside with _ | _
                · rw [show fixGo (l :: rest) false content (some nm) =
                      ("    class ".toList ++ nm') :: fixGo rest false content none from by
                    simp only [fixGo]; rw [if_neg h1, if_neg h2, if_pos h3, hdm]; simp] at hout
                  rcases List.mem_cons.mp hout with h4 | h4
                  · rw [h4]
                    intro hm
                    rcases List.mem_append.mp hm with h5 | h5
                    · exact absurd h5 (show '\r' ∉ "    class ".toList by decide)
                    · exact hnm' h5
                  · exact ih false content none hrest hct (by simp) out h4
                · rw [show fixGo (l :: rest) true content (some nm) =
                      flushClass nm content ++
                        (("    class ".toList ++ nm') :: fixGo rest false [] none) from by
                    simp only [fixGo]; rw [if_neg h1, if_neg h2, if_pos h3, hdm]; simp] at hout
                  rcases List.mem_append.mp hout with h4 | h4
                  · exact hpre nm rfl rfl out h4
                  · rcases List.mem_cons.mp h4 with h5 | h5
                    · rw [h5]
                      intro hm
                      rcases List.mem_append.mp hm with h6 | h6
                      · exact absurd h6 (show '\r' ∉ "    class ".toList by decide)
                      · exact hnm' h6
                    · exact ih false [] none hrest (by simp) (by simp) out h5
            · -- braced declaration
              rcases name with _ | nm
              · rw [show fixGo (l :: rest) inside content none =
                    fixGo rest true content (some nm') from by
                  simp only [fixGo]; rw [if_neg h1, if_neg h2, if_pos h3, hdm]; simp] at hout
                exact ih true content (some nm') hrest hct
                  (fun z hz => Option.some_inj.mp hz ▸ hnm') out hout
              · rcases inside with _ | _
                · rw [show fixGo (l :: rest) false content (some nm) =
                      fixGo rest true content (some nm') from by
                    simp only [fixGo]; rw [if_neg h1, if_neg h2, if_pos h3, hdm]; simp] at hout
                  exact ih true content (some nm') hrest hct
                    (fun z hz => Option.some_inj.mp hz ▸ hnm') out hout
                · rw [show fixGo (l :: rest) true content (some nm) =
                      flushClass nm content ++ fixGo rest true [] (some nm') from by
                    simp only [fixGo]; rw [if_neg h1, if_neg h2, if_pos h3, hdm]; simp] at hout
                  rcases List.mem_append.mp hout with h4 | h4
                  · exact hpre nm rfl rfl out h4
                  · exact ih true [] (some nm') hrest (by simp)
                      (fun z hz => Option.some_inj.mp hz ▸ hnm') out h4
        · by_cases h4 : pyStrip l = "\x7d".toList ∧ inside = true
          · obtain ⟨h4a, h4b⟩ := h4
            subst h4b
            rcases name with _ | nm
            · rw [show fixGo (l :: rest) true content none =
                  fixGo rest false [] none from by
                simp only [fixGo]
                rw [if_neg h1, if_neg h2, if_neg h3, if_pos ⟨h4a, trivial⟩]
                simp] at hout
              exact ih false [] none hrest (by simp) (by simp) out hout
            · rw [show fixGo (l :: rest) true content (some nm) =
                  flushClass nm content ++ fixGo rest false [] none from by
                simp only [fixGo]
                rw [if_neg h1, if_neg h2, if_neg h3, if_pos ⟨h4a, trivial⟩]
                try simp] at hout
              rcases List.mem_append.mp hout with h5 | h5
              · exact no_cr_flushClass (hnm nm rfl) hct out h5
              · exact ih false [] none hrest (by simp) (by simp) out h5
          · rcases inside with _ | _
            · rw [show fixGo (l :: rest) false content name =
                  ("    ".toList ++ pyStrip l) :: fixGo rest false content name from by
                simp only [fixGo]
                rw [if_neg h1, if_neg h2, if_neg h3]
                simp] at hout
              rcases List.mem_cons.mp hout with h5 | h5
              · rw [h5]
                intro hm
                rcases List.mem_append.mp hm with h6 | h6
                · exact absurd h6 (show '\r' ∉ "    ".toList by decide)
                · exact hst h6
              · exact ih false content name hrest hct hnm out h5
            · have h4' : ¬ pyStrip l = "\x7d".toList := fun hc => h4 ⟨hc, rfl⟩
              by_cases hvm : ((pyStrip l).contains ':' ||
                  ("()".toList).isSuffixOf (pyStrip l)) = true
              · rw [show fixGo (l :: rest) true content name =
                    fixGo rest true (content ++ [pyStrip l]) name from by
                  simp only [fixGo]
                  rw [if_neg h1, if_neg h2, if_neg h3,
                    if_neg (fun hcon => h4 ⟨hcon.1, rfl⟩), if_pos trivial,
                    if_pos hvm]] at hout
                refine ih true (content ++ [pyStrip l]) name hrest ?_ hnm out hout
                intro cl hcl
                rcases List.mem_append.mp hcl with h5 | h5
                · exact hct cl h5
                · rcases List.mem_cons.mp h5 with h6 | h6
                  · rw [h6]; exact hst
                  · cases h6
              · rw [show fixGo (l :: rest) true content name =
                    fixGo rest true content name from by
                  simp only [fixGo]
                  rw [if_neg h1, if_neg h2, if_neg h3,
                    if_neg (fun hcon => h4 ⟨hcon.1, rfl⟩), if_pos trivial,
                    if_neg hvm]] at hout
                exact ih true content name hrest hct hnm out hout

theorem no_cr_fixClassDiagram {s : Str} (hs : '\r' ∉ s) :
    '\r' ∉ fixClassDiagram s := by
  intro hm
  unfold fixClassDiagram at hm
  rcases mem_joinLines hm with ⟨l, hl, hx⟩ | h2
  · exact fixGo_no_cr (splitLines s) false [] none
      (fun x hxm hc => hs (mem_of_mem_splitLines hxm hc))
      (by simp) (by simp) l hl hx
  · cases h2

theorem no_cr_cleanDelims {o c : Char} {s : Str} (ho : o ≠ '\r') (hc : c ≠ '\r')
    (hs : '\r' ∉ s) : '\r' ∉ cleanDelims o c s := by
  intro hm
  rcases mem_cleanDelims hm with h | h | h | h
  · exact hs h
  · exact absurd h (by decide)
  · exact ho h.symm
  · exact hc h.symm

theorem no_cr_sanitizeChar (code : Str) : '\r' ∉ sanitizeChar code := by
  have h1 : '\r' ∉ pyStrip (replaceCR (replaceCRLF (normalizeUnicode code))) :=
    fun hm => no_cr_replaceCR _ (mem_of_mem_pyStrip hm)
  have h2 : '\r' ∉ sanitizePre code := fun hm => h1 (mem_stripFences hm)
  have h3 : '\r' ∉ classFixStage (sanitizePre code) := by
    unfold classFixStage
    by_cases hcd : containsSub (sanitizePre code) ("classDiagram".toList) = true
    · rw [if_pos hcd]
      exact no_cr_fixClassDiagram h2
    · rw [if_neg hcd]
      exact h2
  have h4 : '\r' ∉ cleanDelims '[' ']' (classFixStage (sanitizePre code)) :=
    no_cr_cleanDelims (by decide) (by decide) h3
  have h5 := no_cr_cleanDelims (o := '(') (c := ')') (by decide) (by decide) h4
  have h6 : '\r' ∉ bracePass (cleanDelims '(' ')'
      (cleanDelims '[' ']' (classFixStage (sanitizePre code)))) := by
    unfold bracePass
    by_cases hcd : containsSub (cleanDelims '(' ')' (cleanDelims '[' ']'
        (classFixStage (sanitizePre code)))) ("classDiagram".toList) = true
    · rw [if_pos hcd]
      exact h5
    · rw [if_neg hcd]
      exact no_cr_cleanDelims (by decide) (by decide) h5
  exact no_cr_cleanDelims (by decide) (by decide) h6

/-- C10: `sanitize_mermaid`'s output never contains a carriage-return
character (CRLF/CR and the Unicode line separators are normalized to LF
before processing), and — unless the output is empty — no output line is
empty or whitespace-only (blank lines are removed before joining). -/
theorem C10_no_cr_no_blank_lines :
    ∀ code : Str, '\r' ∉ sanitize_mermaid code ∧
      (sanitize_mermaid code = [] ∨
        ∀ l ∈ splitLines (sanitize_mermaid code), pyStrip l ≠ []) := by
  intro code
  by_cases hc : code = []
  · subst hc
    exact ⟨fun h => List.not_mem_nil '\r' h, Or.inl rfl⟩
  · have hout : sanitize_mermaid code =
        pyStrip (joinLines (balanceGo
          ((sanitizedLines code).drop (sanitizeStart code)) 0)) := by
      unfold sanitize_mermaid balanceSubgraphEnds
      rw [if_neg hc]
    set L4 := balanceGo ((sanitizedLines code).drop (sanitizeStart code)) 0 with hL4
    have hsubset : ∀ l ∈ L4, l ∈ sanitizedLines code := by
      intro l hl
      exact List.drop_subset _ _ ((balanceGo_sublist _ 0).subset hl)
    constructor
    · intro hm
      rw [hout] at hm
      rcases mem_joinLines (mem_of_mem_pyStrip hm) with ⟨l, hl, hx⟩ | h2
      · have hl2 := hsubset l hl
        unfold sanitizedLines at hl2
        obtain ⟨l', hl', rfl⟩ := List.mem_map.mp (List.mem_filter.mp hl2).1
        rcases mem_compactLine hx with h3 | h3
        · exact no_cr_sanitizeChar code (mem_of_mem_splitLines hl' h3)
        · exact absurd h3 (by decide)
      · exact absurd h2 (by decide)
    · rcases hL4e : L4 with _ | ⟨l0, ls⟩
      · left
        rw [hout, hL4e]
        rfl
      · right
        intro l hl
        have hprops : ∀ x ∈ (l0 :: ls), x ∈ sanitizedLines code := hL4e ▸ hsubset
        have hbridge := splitLines_pyStrip_joinLines (l0 :: ls) (by simp)
          (fun y hy => sanitizedLines_no_nl y (hprops y hy))
          (fun y hy => sanitizedLines_nonblank y (hprops y hy))
        rw [hout, hL4e] at hl
        have hmem : pyStrip l ∈
            (splitLines (pyStrip (joinLines (l0 :: ls)))).map pyStrip :=
          List.mem_map_of_mem _ hl
        rw [hbridge] at hmem
        obtain ⟨x, hx, hxe⟩ := List.mem_map.mp hmem
        intro hnil
        rw [hnil] at hxe
        exact sanitizedLines_nonblank x (hprops x hx) hxe

/-! ## Well-formed inputs and idempotence (C7) -/

/-- A character that the Unicode normalizer and the line-ending
normalization leave unchanged. -/
def plainChar (c : Char) : Bool :=
  !(c = '\u2028' || c = '\u2029' || c = '\u0085' || c = '\u00A0' ||
    c = '\u202F' || c = '\u200B' || c = '\u200C' || c = '\u200D' ||
    c = '\uFEFF' || c = '\r')

/-- No leading and no trailing whitespace. -/
def noEdgeWS (x : Str) : Bool :=
  (match x with | [] => true | c :: _ => !pyIsSpace c) &&
  (match x.reverse with | [] => true | c :: _ => !pyIsSpace c)

/-- No two adjacent whitespace characters. -/
def noRun2 : Str → Bool
  | [] => true
  | [_] => true
  | a :: b :: r => !(pyIsSpace a && pyIsSpace b) && noRun2 (b :: r)

/-- A line in compacted normal form: non-blank, no trailing whitespace, and
no interior whitespace run of length two or more. -/
def okLine (l : Str) : Bool :=
  !((pyStrip l).isEmpty) &&
  (match l.reverse with | [] => true | c :: _ => !pyIsSpace c) &&
  noRun2 (l.dropWhile pyIsSpace)

/-- Label text already in the normal form produced by the span cleaner:
stripped, with no whitespace runs, and every whitespace character an
ordinary space. -/
def normalizedText (w : Str) : Bool :=
  (pyStrip w == w) && noRun2 w && w.all (fun ch => !pyIsSpace ch || ch == ' ')

/-- Mirror of `cleanDelimsAux` that checks every closed span's content is
already in normal form. -/
def spansNormalizedAux (o c : Char) : Str → Option Str → Bool
  | [], _ => true
  | ch :: rest, none =>
    if ch = o then spansNormalizedAux o c rest (some [])
    else spansNormalizedAux o c rest none
  | ch :: rest, some buf =>
    if ch = c then normalizedText buf.reverse && spansNormalizedAux o c rest none
    else if ch = o then spansNormalizedAux o c rest (some [])
    else spansNormalizedAux o c rest (some (ch :: buf))

/-- Every innermost delimiter span's content is already normalized. -/
def spansNormalized (o c : Char) (s : Str) : Bool := spansNormalizedAux o c s none

/-- Mirror of `balanceGo` that checks no orphan `end` line occurs. -/
def endsBalancedAux : List Str → Nat → Bool
  | [], _ => true
  | l :: rest, d =>
    if ("subgraph".toList).isPrefixOf (pyStrip l) then endsBalancedAux rest (d + 1)
    else if pyStrip l = "end".toList then
      decide (d > 0) && endsBalancedAux rest (d - 1)
    else endsBalancedAux rest d

/-- An already-well-formed diagram string (the premise of the spec's
idempotence property): no exotic Unicode or carriage returns, no
surrounding whitespace or markdown fence, not a class diagram, every line
non-blank and in compacted normal form, the first line a diagram directive,
subgraph/end lines balanced, and every bracket, parenthesis, brace and
quote span already normalized. -/
def WellFormed (x : Str) : Bool :=
  x.all plainChar && noEdgeWS x &&
  !(("```".toList).isPrefixOf x) &&
  !(containsSub x ("classDiagram".toList)) &&
  (splitLines x).all okLine &&
  matchesDirective (pyStrip ((splitLines x).headD [])) &&
  endsBalancedAux (splitLines x) 0 &&
  spansNormalized '[' ']' x && spansNormalized '(' ')' x &&
  spansNormalized '{' '}' x && spansNormalized '"' '"' x

theorem normalizeUnicode_id {s : Str} (h : ∀ c ∈ s, plainChar c = true) :
    normalizeUnicode s = s := by
  induction s with
  | nil => rfl
  | cons c rest ih =>
    have hc := h c (by simp)
    have hrest := ih fun x hx => h x (List.mem_cons_of_mem _ hx)
    unfold plainChar at hc
    simp only [Bool.not_eq_true', Bool.or_eq_false_iff] at hc
    obtain ⟨⟨⟨⟨⟨⟨⟨⟨⟨h1, h2⟩, h3⟩, h4⟩, h5⟩, h6⟩, h7⟩, h8⟩, h9⟩, h10⟩ := hc
    show normalizeUnicode (c :: rest) = c :: rest
    unfold normalizeUnicode at *
    rw [List.filterMap_cons]
    simp only [decide_eq_false_iff_not] at h1 h2 h3 h4 h5 h6 h7 h8 h9 h10
    rw [if_neg (by simp [h1, h2, h3]), if_neg (by simp [h4, h5]),
      if_neg (by simp [h6, h7, h8, h9])]
    rw [hrest]

theorem replaceCRLF_id {s : Str} (h : '\r' ∉ s) : replaceCRLF s = s := by
  induction s with
  | nil => rfl
  | cons c rest ih =>
    have hc : c ≠ '\r' := fun hx => h (by simp [hx])
    have hrest : replaceCRLF rest = rest := ih fun hx => h (List.mem_cons_of_mem _ hx)
    rcases rest with _ | ⟨d, ds⟩
    · rfl
    · show replaceCRLF (c :: d :: ds) = c :: d :: ds
      rw [show replaceCRLF (c :: d :: ds) =
          if c = '\r' ∧ d = '\n' then '\n' :: replaceCRLF ds
          else c :: replaceCRLF (d :: ds) from rfl]
      rw [if_neg (fun hcon => hc hcon.1), hrest]

theorem replaceCR_id {s : Str} (h : '\r' ∉ s) : replaceCR s = s := by
  unfold replaceCR
  rw [show s.map (fun c => if c = '\r' then '\n' else c) = s.map id from ?_, List.map_id]
  apply List.map_congr_left
  intro c hc
  rw [if_neg (fun he => h (by rw [← he]; exact hc))]
  rfl

theorem pyLStrip_id {x : Str} (h : match x with | [] => True | c :: _ => pyIsSpace c = false) :
    pyLStrip x = x := by
  rcases x with _ | ⟨c, rest⟩
  · rfl
  · have hc : pyIsSpace c = false := h
    simp [pyLStrip, List.dropWhile, hc]

theorem pyRStrip_id {x : Str}
    (h : match x.reverse with | [] => True | c :: _ => pyIsSpace c = false) :
    pyRStrip x = x := by
  unfold pyRStrip
  rcases hr : x.reverse with _ | ⟨c, rest⟩
  · have hx : x = [] := by
      have := congrArg List.reverse hr
      simpa using this
    subst hx
    rfl
  · rw [hr] at h
    have hc : pyIsSpace c = false := h
    rw [show List.dropWhile pyIsSpace (c :: rest) = c :: rest from by
      simp [List.dropWhile, hc], ← hr, List.reverse_reverse]

theorem pyStrip_id {x : Str} (h : noEdgeWS x = true) : pyStrip x = x := by
  unfold noEdgeWS at h
  rw [Bool.and_eq_true] at h
  unfold pyStrip
  rw [pyLStrip_id (by
    rcases x with _ | ⟨c, r⟩
    · trivial
    · simpa using h.1)]
  exact pyRStrip_id (by
    rcases hr : x.reverse with _ | ⟨c, r⟩
    · trivial
    · have := h.2
      rw [hr] at this
      simpa using this)

theorem noRun2_tail {a : Char} {r : Str} (h : noRun2 (a :: r) = true) :
    noRun2 r = true := by
  rcases r with _ | ⟨b, t⟩
  · rfl
  · have : noRun2 (a :: b :: t) = (!(pyIsSpace a && pyIsSpace b) && noRun2 (b :: t)) := rfl
    rw [this, Bool.and_eq_true] at h
    exact h.2

theorem collapseWSAux_id :
    ∀ (s : Str) (b : Bool), noRun2 s = true →
      (s.all fun ch => !pyIsSpace ch || ch == ' ') = true →
      (b = true → match s with | [] => True | c :: _ => pyIsSpace c = false) →
      collapseWSAux s b = s := by
  intro s
  induction s with
  | nil => intro b _ _ _; rfl
  | cons c rest ih =>
    intro b hrun hall hhead
    have hallr : (rest.all fun ch => !pyIsSpace ch || ch == ' ') = true := by
      rw [List.all_cons, Bool.and_eq_true] at hall
      exact hall.2
    by_cases hw : pyIsSpace c = true
    · have hb : b = false := by
        by_contra hbc
        have : b = true := by simpa using hbc
        have := hhead this
        simp only at this
        rw [this] at hw
        cases hw
      subst hb
      have hcsp : c = ' ' := by
        rw [List.all_cons, Bool.and_eq_true] at hall
        have := hall.1
        rw [hw] at this
        simpa using this
      rw [show collapseWSAux (c :: rest) false = ' ' :: collapseWSAux rest true from by
        simp [collapseWSAux, hw]]
      rw [ih true (noRun2_tail hrun) hallr ?_]
      · rw [hcsp]
      · intro _
        rcases rest with _ | ⟨d, t⟩
        · trivial
        · have : noRun2 (c :: d :: t) = (!(pyIsSpace c && pyIsSpace d) && noRun2 (d :: t)) := rfl
          rw [this, Bool.and_eq_true] at hrun
          have := hrun.1
          rw [hw] at this
          simpa using this
    · rw [show collapseWSAux (c :: rest) b = c :: collapseWSAux rest false from by
        simp [collapseWSAux, hw]]
      rw [ih false (noRun2_tail hrun) hallr (by intro hcon; cases hcon)]

theorem cleanInner_id {w : Str} (h : normalizedText w = true) : cleanInner w = w := by
  unfold normalizedText at h
  rw [Bool.and_eq_true, Bool.and_eq_true] at h
  obtain ⟨⟨h1, h2⟩, h3⟩ := h
  unfold cleanInner collapseWS
  rw [show pyStrip w = w from by
    have := beq_iff_eq.mp h1
    exact this]
  exact collapseWSAux_id w false h2 h3 (by intro hcon; cases hcon)

theorem cleanDelimsAux_id {o c : Char} :
    ∀ (s : Str) (st : Option Str), spansNormalizedAux o c s st = true →
      cleanDelimsAux o c s st =
        (match st with | none => s | some buf => o :: (buf.reverse ++ s)) := by
  intro s
  induction s with
  | nil =>
    intro st _
    rcases st with _ | buf
    · rfl
    · show o :: buf.reverse = o :: (buf.reverse ++ [])
      rw [List.append_nil]
  | cons ch rest ih =>
    intro st hsp
    rcases st with _ | buf
    · by_cases hco : ch = o
      · rw [show cleanDelimsAux o c (ch :: rest) none =
            cleanDelimsAux o c rest (some []) from by
          simp only [cleanDelimsAux]; rw [if_pos hco]]
        rw [show spansNormalizedAux o c (ch :: rest) none =
            spansNormalizedAux o c rest (some []) from by
          simp only [spansNormalizedAux]; rw [if_pos hco]] at hsp
        rw [ih (some []) hsp]
        simp [hco]
      · rw [show cleanDelimsAux o c (ch :: rest) none =
            ch :: cleanDelimsAux o c rest none from by
          simp only [cleanDelimsAux]; rw [if_neg hco]]
        rw [show spansNormalizedAux o c (ch :: rest) none =
            spansNormalizedAux o c rest none from by
          simp only [spansNormalizedAux]; rw [if_neg hco]] at hsp
        rw [ih none hsp]
    · by_cases hcc : ch = c
      · rw [show cleanDelimsAux o c (ch :: rest) (some buf) =
            o :: (cleanInner buf.reverse ++ c :: cleanDelimsAux o c rest none) from by
          simp only [cleanDelimsAux]; rw [if_pos hcc]]
        rw [show spansNormalizedAux o c (ch :: rest) (some buf) =
            (normalizedText buf.reverse && spansNormalizedAux o c rest none) from by
          simp only [spansNormalizedAux]; rw [if_pos hcc]] at hsp
        rw [Bool.and_eq_true] at hsp
        rw [cleanInner_id hsp.1, ih none hsp.2, hcc]
      · by_cases hco : ch = o
        · rw [show cleanDelimsAux o c (ch :: rest) (some buf) =
              o :: buf.reverse ++ cleanDelimsAux o c rest (some []) from by
            simp only [cleanDelimsAux]; rw [if_neg hcc, if_pos hco]]
          rw [show spansNormalizedAux o c (ch :: rest) (some buf) =
              spansNormalizedAux o c rest (some []) from by
            simp only [spansNormalizedAux]; rw [if_neg hcc, if_pos hco]] at hsp
          rw [ih (some []) hsp]
          simp [hco]
        · rw [show cleanDelimsAux o c (ch :: rest) (some buf) =
              cleanDelimsAux o c rest (some (ch :: buf)) from by
            simp only [cleanDelimsAux]; rw [if_neg hcc, if_neg hco]]
          rw [show spansNormalizedAux o c (ch :: rest) (some buf) =
              spansNormalizedAux o c rest (some (ch :: buf)) from by
            simp only [spansNormalizedAux]; rw [if_neg hcc, if_neg hco]] at hsp
          rw [ih (some (ch :: buf)) hsp]
          simp

theorem cleanDelims_id {o c : Char} {s : Str}
    (h : spansNormalized o c s = true) : cleanDelims o c s = s :=
  cleanDelimsAux_id s none h

theorem compactInteriorAux_id :
    ∀ (s : Str), noRun2 s = true → compactInteriorAux s false = s := by
  intro s
  induction s with
  | nil => intro _; rfl
  | cons ch rest ih =>
    intro hrun
    by_cases hw : pyIsSpace ch = true
    · rcases rest with _ | ⟨d, ds⟩
      · simp [compactInteriorAux, hw]
      · have hd : pyIsSpace d = false := by
          have : noRun2 (ch :: d :: ds) =
              (!(pyIsSpace ch && pyIsSpace d) && noRun2 (d :: ds)) := rfl
          rw [this, Bool.and_eq_true] at hrun
          have := hrun.1
          rw [hw] at this
          simpa using this
        rw [show compactInteriorAux (ch :: d :: ds) false =
            ch :: compactInteriorAux (d :: ds) false from by
          simp [compactInteriorAux, hw, hd]]
        rw [ih (noRun2_tail hrun)]
    · rw [show compactInteriorAux (ch :: rest) false =
          ch :: compactInteriorAux rest false from by
        simp [compactInteriorAux, hw]]
      rw [ih (noRun2_tail hrun)]

theorem compactLine_id {l : Str} (h : okLine l = true) : compactLine l = l := by
  unfold okLine at h
  rw [Bool.and_eq_true, Bool.and_eq_true] at h
  obtain ⟨⟨_, h2⟩, h3⟩ := h
  have hrr : pyRStrip l = l := pyRStrip_id (by
    rcases hr : l.reverse with _ | ⟨c, r⟩
    · trivial
    · rw [hr] at h2
      simpa using h2)
  show List.takeWhile pyIsSpace (pyRStrip l) ++
      compactInteriorAux (List.dropWhile pyIsSpace (pyRStrip l)) false = l
  rw [hrr, compactInteriorAux_id _ h3]
  exact List.takeWhile_append_dropWhile pyIsSpace l

theorem balanceGo_id :
    ∀ (L : List Str) (d : ℕ), endsBalancedAux L d = true → balanceGo L d = L := by
  intro L
  induction L with
  | nil => intro d _; rfl
  | cons l rest ih =>
    intro d hb
    by_cases h1 : ("subgraph".toList).isPrefixOf (pyStrip l) = true
    · rw [balanceGo_cons_sub rest d h1]
      rw [show endsBalancedAux (l :: rest) d = endsBalancedAux rest (d + 1) from by
        simp only [endsBalancedAux]; rw [if_pos h1]] at hb
      rw [ih (d + 1) hb]
    · by_cases h2 : pyStrip l = "end".toList
      · rw [show endsBalancedAux (l :: rest) d =
            (decide (d > 0) && endsBalancedAux rest (d - 1)) from by
          simp only [endsBalancedAux]; rw [if_neg h1, if_pos h2]] at hb
        rw [Bool.and_eq_true] at hb
        have hd : d > 0 := of_decide_eq_true hb.1
        rw [balanceGo_cons_end_pos rest h1 h2 hd, ih (d - 1) hb.2]
      · rw [balanceGo_cons_other rest d h1 h2]
        rw [show endsBalancedAux (l :: rest) d = endsBalancedAux rest d from by
          simp only [endsBalancedAux]; rw [if_neg h1, if_neg h2]] at hb
        rw [ih d hb]

theorem joinLines_splitLines : ∀ (s : Str), joinLines (splitLines s) = s := by
  intro s
  induction s with
  | nil => rfl
  | cons c rest ih =>
    by_cases hc : c = '\n'
    · rw [show splitLines (c :: rest) = [] :: splitLines rest from by
        simp [splitLines, hc]]
      rw [joinLines_cons _ (splitLines_ne_nil rest), ih, hc]
      rfl
    · rcases hs : splitLines rest with _ | ⟨t, ls⟩
      · exact absurd hs (splitLines_ne_nil rest)
      · rw [show splitLines (c :: rest) = (c :: t) :: ls from by
          simp only [splitLines, if_neg hc, hs]]
        rw [hs] at ih
        rcases ls with _ | ⟨u, us⟩
        · show c :: t = c :: rest
          rw [show t = rest from ih]
        · rw [joinLines_cons _ (by simp)]
          rw [joinLines_cons _ (by simp)] at ih
          show c :: (t ++ '\n' :: joinLines (u :: us)) = c :: rest
          rw [ih]

theorem sanitize_id_of_wellFormed {x : Str} (h : WellFormed x = true) :
    sanitize_mermaid x = x := by
  unfold WellFormed at h
  rw [Bool.and_eq_true, Bool.and_eq_true, Bool.and_eq_true, Bool.and_eq_true,
    Bool.and_eq_true, Bool.and_eq_true, Bool.and_eq_true, Bool.and_eq_true,
    Bool.and_eq_true, Bool.and_eq_true] at h
  obtain ⟨⟨⟨⟨⟨⟨⟨⟨⟨⟨hplain, hedge⟩, hfence⟩, hclass⟩, hlines⟩, hdir⟩,
    hbal⟩, hsq⟩, hpar⟩, hbr⟩, hqt⟩ := h
  have hxne : ¬ (x = []) := by
    intro hxe
    rw [hxe] at hdir
    exact absurd hdir (by decide)
  have hplainAll : ∀ c ∈ x, plainChar c = true := List.all_eq_true.mp hplain
  have hnr : '\r' ∉ x := fun hm => absurd (hplainAll '\r' hm) (by decide)
  have h4 : pyStrip x = x := pyStrip_id hedge
  have hfence' : ("```".toList).isPrefixOf x = false := by
    simpa using hfence
  have hclass' : containsSub x ("classDiagram".toList) = false := by
    simpa using hclass
  have h5 : sanitizePre x = x := by
    unfold sanitizePre stripFences
    rw [normalizeUnicode_id hplainAll, replaceCRLF_id hnr, replaceCR_id hnr, h4,
      if_neg (by simp only [Bool.not_eq_true]; exact hfence')]
  have h6 : classFixStage x = x := by
    unfold classFixStage
    rw [if_neg (by simp only [Bool.not_eq_true]; exact hclass')]
  have hbp : bracePass x = x := by
    unfold bracePass
    rw [if_neg (by simp only [Bool.not_eq_true]; exact hclass')]
    exact cleanDelims_id hbr
  have hchar : sanitizeChar x = x := by
    unfold sanitizeChar
    rw [h5, h6, cleanDelims_id hsq, cleanDelims_id hpar, hbp, cleanDelims_id hqt]
  have hlines' : ∀ l ∈ splitLines x, okLine l = true := List.all_eq_true.mp hlines
  have hmapc : (splitLines x).map compactLine = splitLines x := by
    rw [show (splitLines x).map compactLine = (splitLines x).map id from
      List.map_congr_left fun l hl => by rw [compactLine_id (hlines' l hl)]; rfl,
      List.map_id]
  have hsl : sanitizedLines x = splitLines x := by
    unfold sanitizedLines
    rw [hchar, hmapc]
    rw [List.filter_eq_self.mpr]
    intro l hl
    have := hlines' l hl
    unfold okLine at this
    rw [Bool.and_eq_true, Bool.and_eq_true] at this
    have hne := this.1.1
    simp only [Bool.not_eq_true', List.isEmpty_iff] at hne
    simpa using hne
  have hstart : sanitizeStart x = 0 := by
    unfold sanitizeStart
    rw [hsl]
    rcases hsx : splitLines x with _ | ⟨l0, ls⟩
    · exact absurd hsx (splitLines_ne_nil x)
    · rw [hsx] at hdir
      rw [List.findIdx?_cons, if_pos (by simpa using hdir)]
      rfl
  show (if x = [] then x else _) = x
  rw [if_neg hxne, hsl, hstart, List.drop_zero]
  unfold balanceSubgraphEnds
  rw [balanceGo_id _ 0 hbal, joinLines_splitLines, h4]

/-- C7: `sanitize_mermaid` is idempotent on already-well-formed diagram
strings — for any `x` satisfying the `WellFormed` normal-form conditions,
`sanitize_mermaid x = x` (proved as `sanitize_id_of_wellFormed`), hence
sanitizing twice equals sanitizing once. -/
theorem C7_sanitize_idempotent :
    ∀ x : Str, WellFormed x = true →
      sanitize_mermaid (sanitize_mermaid x) = sanitize_mermaid x := by
  intro x h
  rw [sanitize_id_of_wellFormed h, sanitize_id_of_wellFormed h]

/-- C7 witness: a concrete well-formed diagram with a bracket label, a brace
label, and a balanced subgraph block. -/
theorem C7_sanitize_idempotent_witness :
    WellFormed ("graph TD\nA[Start] --> B{Go}\nsubgraph S\nC --> D\nend".toList) = true ∧
    sanitize_mermaid (sanitize_mermaid
      ("graph TD\nA[Start] --> B{Go}\nsubgraph S\nC --> D\nend".toList)) =
      sanitize_mermaid ("graph TD\nA[Start] --> B{Go}\nsubgraph S\nC --> D\nend".toList) :=
  ⟨by decide, C7_sanitize_idempotent _ (by decide)⟩

/-! ### C2: raw newlines inside delimiter spans -/

/-- The depth-counter reading of the span property claimed for the
sanitizer: scan left to right, `o` increments and `c` decrements a depth
counter, and a raw newline while the depth is positive violates the
property (result `false`). -/
def depthNoNL (o c : Char) : Str → Nat → Bool
  | [], _ => true
  | ch :: rest, d =>
    if ch = o then depthNoNL o c rest (d + 1)
    else if ch = c then depthNoNL o c rest (d - 1)
    else if ch = '\n' ∧ d > 0 then false
    else depthNoNL o c rest d

/-- Innermost-span newline scanner.  State `none`: outside a span; state
`some sawNL`: after an opener whose next delimiter is still unknown,
`sawNL` recording whether a raw newline has been seen since that opener.
A closer reached with `sawNL = true` fails (result `none`); otherwise the
scan succeeds and returns its final state.  With `o = c` the closer test
fires first, so quotes pair up consecutively. -/
def scanNL (o c : Char) : Str → Option Bool → Option (Option Bool)
  | [], st => some st
  | ch :: rest, none =>
    if ch = o then scanNL o c rest (some false)
    else scanNL o c rest none
  | ch :: rest, some sawNL =>
    if ch = c then
      if sawNL then none else scanNL o c rest none
    else if ch = o then scanNL o c rest (some false)
    else scanNL o c rest (some (sawNL || decide (ch = '\n')))

/-- No raw newline occurs strictly inside an innermost `o…c` span: every
occurrence of `o` whose next delimiter (`o` or `c`) is `c` has no `'\n'`
between the two. -/
def noNLSpans (o c : Char) (s : Str) : Bool := (scanNL o c s none).isSome

/-- C2 counterexample: on `"graph TD\nA[x\n[y]\nz]"` the sanitizer returns
its input unchanged, and that output has a raw newline at positive bracket
depth (directly after `A[x`), contradicting the claimed depth-counter
newline elimination for nested same-kind spans. -/
theorem C2_counterexample :
    sanitize_mermaid ("graph TD\nA[x\n[y]\nz]".toList) =
      "graph TD\nA[x\n[y]\nz]".toList ∧
    depthNoNL '[' ']'
      (sanitize_mermaid ("graph TD\nA[x\n[y]\nz]".toList)) 0 = false :=
  ⟨by decide, by decide⟩

/-- Character-level thinning: `CThin D s t` holds when `t` arises from `s`
by keeping characters, deleting characters from the set `D`, and replacing
whitespace characters by a single space.  Every whitespace-rewriting stage
of the sanitizer relates its input and output this way. -/
inductive CThin (D : Char → Prop) : Str → Str → Prop
  | nil : CThin D [] []
  | keep (ch : Char) {s t : Str} : CThin D s t → CThin D (ch :: s) (ch :: t)
  | del (ch : Char) {s t : Str} (h : D ch) : CThin D s t → CThin D (ch :: s) t
  | subst (w : Char) {s t : Str} (h : pyIsSpace w = true) :
      CThin D s t → CThin D (w :: s) (' ' :: t)

/-- Deletable characters of the whitespace-only stages. -/
def wsDel (ch : Char) : Prop := pyIsSpace ch = true

/-- Deletable characters of the `end`-line-dropping stage. -/
def endDel (ch : Char) : Prop :=
  pyIsSpace ch = true ∨ ch = 'e' ∨ ch = 'n' ∨ ch = 'd'

theorem CThin_refl {D : Char → Prop} : ∀ s : Str, CThin D s s
  | [] => CThin.nil
  | ch :: rest => CThin.keep ch (CThin_refl rest)

theorem CThin_append {D : Char → Prop} {a a' b b' : Str}
    (h1 : CThin D a a') (h2 : CThin D b b') : CThin D (a ++ b) (a' ++ b') := by
  induction h1 with
  | nil => exact h2
  | keep ch _ ih => exact CThin.keep ch ih
  | del ch hch _ ih => exact CThin.del ch hch ih
  | subst w hw _ ih => exact CThin.subst w hw ih

theorem CThin_del_all {D : Char → Prop} :
    ∀ s : Str, (∀ ch ∈ s, D ch) → CThin D s [] := by
  intro s
  induction s with
  | nil => intro _; exact CThin.nil
  | cons ch rest ih =>
    intro h
    exact CThin.del ch (h ch (List.mem_cons_self ch rest))
      (ih fun x hx => h x (List.mem_cons_of_mem ch hx))

/-- State order for the scanner simulation: the thinned side's flag implies
the original side's flag. -/
def stLE : Option Bool → Option Bool → Prop
  | none, none => True
  | some bt, some bs => bt = true → bs = true
  | _, _ => False

theorem stLE_none : stLE none none := trivial

theorem stLE_some {bt bs : Bool} (h : bt = true → bs = true) :
    stLE (some bt) (some bs) := h

theorem scanNL_cons_none_open {o c ch : Char} {rest : Str} (h : ch = o) :
    scanNL o c (ch :: rest) none = scanNL o c rest (some false) := by
  simp only [scanNL]
  rw [if_pos h]

theorem scanNL_cons_none_other {o c ch : Char} {rest : Str} (h : ¬ ch = o) :
    scanNL o c (ch :: rest) none = scanNL o c rest none := by
  simp only [scanNL]
  rw [if_neg h]

theorem scanNL_cons_some_close_bad {o c ch : Char} {rest : Str} {b : Bool}
    (h : ch = c) (hb : b = true) :
    scanNL o c (ch :: rest) (some b) = none := by
  simp only [scanNL]
  rw [if_pos h, if_pos hb]

theorem scanNL_cons_some_close_ok {o c ch : Char} {rest : Str} {b : Bool}
    (h : ch = c) (hb : b = false) :
    scanNL o c (ch :: rest) (some b) = scanNL o c rest none := by
  simp only [scanNL]
  rw [if_pos h, if_neg (by simp [hb])]

theorem scanNL_cons_some_open {o c ch : Char} {rest : Str} {b : Bool}
    (h1 : ¬ ch = c) (h2 : ch = o) :
    scanNL o c (ch :: rest) (some b) = scanNL o c rest (some false) := by
  simp only [scanNL]
  rw [if_neg h1, if_pos h2]

theorem scanNL_cons_some_other {o c ch : Char} {rest : Str} {b : Bool}
    (h1 : ¬ ch = c) (h2 : ¬ ch = o) :
    scanNL o c (ch :: rest) (some b) =
      scanNL o c rest (some (b || decide (ch = '\n'))) := by
  simp only [scanNL]
  rw [if_neg h1, if_neg h2]

/-- Simulation: a thinning of the scanned string cannot introduce an
innermost-span newline violation, provided no deleted character and no
substituted space is a delimiter. -/
theorem scanNL_thin {D : Char → Prop} {o c : Char}
    (ho : pyIsSpace o = false) (hc : pyIsSpace c = false)
    (hD : ∀ ch, D ch → ch ≠ o ∧ ch ≠ c) :
    ∀ {s t : Str}, CThin D s t → ∀ {stS stT : Option Bool} {e : Option Bool},
      scanNL o c s stS = some e → stLE stT stS →
      ∃ e', scanNL o c t stT = some e' ∧ stLE e' e := by
  intro s t hthin
  induction hthin with
  | nil =>
    intro stS stT e hS hLE
    have he : stS = e := Option.some.inj hS
    exact ⟨stT, rfl, he ▸ hLE⟩
  | keep ch h ih =>
    intro stS stT e hS hLE
    cases stS with
    | none =>
      cases stT with
      | none =>
        by_cases hco : ch = o
        · rw [scanNL_cons_none_open hco] at hS
          rw [scanNL_cons_none_open hco]
          exact ih hS (stLE_some fun h => h)
        · rw [scanNL_cons_none_other hco] at hS
          rw [scanNL_cons_none_other hco]
          exact ih hS stLE_none
      | some bt => exact hLE.elim
    | some bs =>
      cases stT with
      | none => exact hLE.elim
      | some bt =>
        by_cases hcc : ch = c
        · by_cases hbs : bs = true
          · rw [scanNL_cons_some_close_bad hcc hbs] at hS
            exact absurd hS (by simp)
          · have hbs' : bs = false := by simpa using hbs
            have hbt : bt = false := by
              have : bt ≠ true := fun hb => hbs (hLE hb)
              simpa using this
            rw [scanNL_cons_some_close_ok hcc hbs'] at hS
            rw [scanNL_cons_some_close_ok hcc hbt]
            exact ih hS stLE_none
        · by_cases hco : ch = o
          · rw [scanNL_cons_some_open hcc hco] at hS
            rw [scanNL_cons_some_open hcc hco]
            exact ih hS (stLE_some fun h => h)
          · rw [scanNL_cons_some_other hcc hco] at hS
            rw [scanNL_cons_some_other hcc hco]
            refine ih hS (stLE_some ?_)
            intro hbt
            have hbt2 : bt = true ∨ ch = '\n' := by simpa using hbt
            rcases hbt2 with h2 | h2
            · simp [hLE h2]
            · simp [h2]
  | del ch hch h ih =>
    intro stS stT e hS hLE
    obtain ⟨hno, hnc⟩ := hD ch hch
    cases stS with
    | none =>
      cases stT with
      | none =>
        rw [scanNL_cons_none_other hno] at hS
        exact ih hS stLE_none
      | some bt => exact hLE.elim
    | some bs =>
      cases stT with
      | none => exact hLE.elim
      | some bt =>
        rw [scanNL_cons_some_other hnc hno] at hS
        exact ih hS (stLE_some fun hbt => by simp [hLE hbt])
  | subst w hw h ih =>
    intro stS stT e hS hLE
    have hsp : pyIsSpace ' ' = true := by decide
    have hwo : w ≠ o := fun he => by rw [he, ho] at hw; exact absurd hw (by simp)
    have hwc : w ≠ c := fun he => by rw [he, hc] at hw; exact absurd hw (by simp)
    have hso : ¬ (' ' = o) := fun he => by
      rw [he, ho] at hsp; exact absurd hsp (by simp)
    have hsc : ¬ (' ' = c) := fun he => by
      rw [he, hc] at hsp; exact absurd hsp (by simp)
    cases stS with
    | none =>
      cases stT with
      | none =>
        rw [scanNL_cons_none_other hwo] at hS
        rw [scanNL_cons_none_other hso]
        exact ih hS stLE_none
      | some bt => exact hLE.elim
    | some bs =>
      cases stT with
      | none => exact hLE.elim
      | some bt =>
        rw [scanNL_cons_some_other hwc hwo] at hS
        rw [scanNL_cons_some_other hsc hso]
        refine ih hS (stLE_some ?_)
        intro hbt
        have hbt' : bt = true := by simpa using hbt
        simp [hLE hbt']

theorem collapseWSAux_chars {x : Char} :
    ∀ (s : Str) (b : Bool), x ∈ collapseWSAux s b →
      (x ∈ s ∧ pyIsSpace x = false) ∨ x = ' ' := by
  intro s
  induction s with
  | nil => intro b h; simp [collapseWSAux] at h
  | cons ch rest ih =>
    intro b h
    by_cases hw : pyIsSpace ch
    · by_cases hb : b = true
      · subst hb
        rw [show collapseWSAux (ch :: rest) true = collapseWSAux rest true from by
          simp [collapseWSAux, hw]] at h
        rcases ih true h with ⟨h2, h3⟩ | h2
        · exact Or.inl ⟨List.mem_cons_of_mem _ h2, h3⟩
        · exact Or.inr h2
      · have hb' : b = false := by simpa using hb
        subst hb'
        rw [show collapseWSAux (ch :: rest) false = ' ' :: collapseWSAux rest true from by
          simp [collapseWSAux, hw]] at h
        rcases List.mem_cons.mp h with h2 | h2
        · exact Or.inr h2
        · rcases ih true h2 with ⟨h3, h4⟩ | h3
          · exact Or.inl ⟨List.mem_cons_of_mem _ h3, h4⟩
          · exact Or.inr h3
    · rw [show collapseWSAux (ch :: rest) b = ch :: collapseWSAux rest false from by
        simp [collapseWSAux, hw]] at h
      rcases List.mem_cons.mp h with h2 | h2
      · exact Or.inl ⟨by simp [h2], by rw [h2]; simpa using hw⟩
      · rcases ih false h2 with ⟨h3, h4⟩ | h3
        · exact Or.inl ⟨List.mem_cons_of_mem _ h3, h4⟩
        · exact Or.inr h3

theorem cleanInner_chars {x : Char} {s : Str} (h : x ∈ cleanInner s) :
    (x ∈ s ∧ pyIsSpace x = false) ∨ x = ' ' := by
  unfold cleanInner collapseWS at h
  rcases collapseWSAux_chars _ false h with ⟨h2, h3⟩ | h2
  · exact Or.inl ⟨mem_of_mem_pyStrip h2, h3⟩
  · exact Or.inr h2

/-- The output of `cleanDelimsAux` in buffering state always starts with
the opener. -/
theorem cleanDelimsAux_some_head (o c : Char) :
    ∀ (s : Str) (buf : Str), ∃ t, cleanDelimsAux o c s (some buf) = o :: t := by
  intro s
  induction s with
  | nil => intro buf; exact ⟨buf.reverse, rfl⟩
  | cons ch rest ih =>
    intro buf
    by_cases hcc : ch = c
    · refine ⟨cleanInner buf.reverse ++ c :: cleanDelimsAux o c rest none, ?_⟩
      simp only [cleanDelimsAux]
      rw [if_pos hcc]
    · by_cases hco : ch = o
      · refine ⟨buf.reverse ++ cleanDelimsAux o c rest (some []), ?_⟩
        simp only [cleanDelimsAux]
        rw [if_neg hcc, if_pos hco]
        simp
      · obtain ⟨t, ht⟩ := ih (ch :: buf)
        refine ⟨t, ?_⟩
        simp only [cleanDelimsAux]
        rw [if_neg hcc, if_neg hco]
        exact ht

/-- Walking delimiter-free, newline-free text inside a span leaves the
scanner state unchanged. -/
theorem scanNL_walk_clean {o c : Char} :
    ∀ m : Str, (∀ ch ∈ m, ¬ ch = o ∧ ¬ ch = c ∧ ¬ ch = '\n') →
      ∀ (rest : Str) (b : Bool),
        scanNL o c (m ++ rest) (some b) = scanNL o c rest (some b) := by
  intro m
  induction m with
  | nil => intro _ rest b; rfl
  | cons ch m' ih =>
    intro h rest b
    obtain ⟨h1, h2, h3⟩ := h ch (List.mem_cons_self ch m')
    rw [List.cons_append, scanNL_cons_some_other h2 h1]
    rw [show (b || decide (ch = '\n')) = b from by simp [h3]]
    exact ih (fun x hx => h x (List.mem_cons_of_mem ch hx)) rest b

/-- Walking delimiter-free text inside a span keeps the scanner in some
in-span state. -/
theorem scanNL_walk_nodelim {o c : Char} :
    ∀ m : Str, (∀ ch ∈ m, ¬ ch = o ∧ ¬ ch = c) →
      ∀ (rest : Str) (b : Bool), ∃ b2,
        scanNL o c (m ++ rest) (some b) = scanNL o c rest (some b2) := by
  intro m
  induction m with
  | nil => intro _ rest b; exact ⟨b, rfl⟩
  | cons ch m' ih =>
    intro h rest b
    obtain ⟨h1, h2⟩ := h ch (List.mem_cons_self ch m')
    rw [List.cons_append, scanNL_cons_some_other h2 h1]
    exact ih (fun x hx => h x (List.mem_cons_of_mem ch hx)) rest _

/-- The output of one `cleanDelims` pass satisfies the innermost-span
condition for its own delimiter pair. -/
theorem scanNL_cleanDelimsAux {o c : Char}
    (ho : pyIsSpace o = false) (hc : pyIsSpace c = false) :
    ∀ s : Str,
      (scanNL o c (cleanDelimsAux o c s none) none).isSome = true ∧
      ∀ buf : Str, (∀ ch ∈ buf, ¬ ch = o ∧ ¬ ch = c) →
        (scanNL o c (cleanDelimsAux o c s (some buf)) none).isSome = true := by
  have hsp : pyIsSpace ' ' = true := by decide
  have hnl : pyIsSpace '\n' = true := by decide
  intro s
  induction s with
  | nil =>
    constructor
    · rfl
    · intro buf hbuf
      show (scanNL o c (o :: buf.reverse) none).isSome = true
      rw [scanNL_cons_none_open rfl]
      obtain ⟨b2, hb2⟩ := scanNL_walk_nodelim buf.reverse
        (fun x hx => hbuf x (List.mem_reverse.mp hx)) [] false
      rw [List.append_nil] at hb2
      rw [hb2]
      rfl
  | cons ch rest ih =>
    constructor
    · by_cases hco : ch = o
      · rw [show cleanDelimsAux o c (ch :: rest) none =
            cleanDelimsAux o c rest (some []) from by
          simp only [cleanDelimsAux]; rw [if_pos hco]]
        exact ih.2 [] (by intro x hx; simp at hx)
      · rw [show cleanDelimsAux o c (ch :: rest) none =
            ch :: cleanDelimsAux o c rest none from by
          simp only [cleanDelimsAux]; rw [if_neg hco]]
        rw [scanNL_cons_none_other hco]
        exact ih.1
    · intro buf hbuf
      have hmclean : ∀ x ∈ cleanInner buf.reverse,
          ¬ x = o ∧ ¬ x = c ∧ ¬ x = '\n' := by
        intro x hx
        rcases cleanInner_chars hx with ⟨h2, h3⟩ | h2
        · obtain ⟨h4, h5⟩ := hbuf x (List.mem_reverse.mp h2)
          refine ⟨h4, h5, ?_⟩
          intro he
          rw [he, hnl] at h3
          exact absurd h3 (by simp)
        · refine ⟨?_, ?_, ?_⟩
          · intro he
            have ho2 : o = ' ' := by rw [← he, h2]
            rw [ho2] at ho
            rw [ho] at hsp
            exact absurd hsp (by simp)
          · intro he
            have hc2 : c = ' ' := by rw [← he, h2]
            rw [hc2] at hc
            rw [hc] at hsp
            exact absurd hsp (by simp)
          · intro he; rw [h2] at he; exact absurd he (by decide)
      by_cases hcc : ch = c
      · rw [show cleanDelimsAux o c (ch :: rest) (some buf) =
            o :: (cleanInner buf.reverse ++ c :: cleanDelimsAux o c rest none)
            from by simp only [cleanDelimsAux]; rw [if_pos hcc]]
        rw [scanNL_cons_none_open rfl]
        rw [scanNL_walk_clean _ hmclean _ false]
        rw [scanNL_cons_some_close_ok rfl rfl]
        exact ih.1
      · by_cases hco : ch = o
        · have honc : ¬ o = c := by rw [← hco]; exact hcc
          rw [show cleanDelimsAux o c (ch :: rest) (some buf) =
              o :: (buf.reverse ++ cleanDelimsAux o c rest (some [])) from by
            simp only [cleanDelimsAux]; rw [if_neg hcc, if_pos hco]; simp]
          rw [scanNL_cons_none_open rfl]
          obtain ⟨b2, hb2⟩ := scanNL_walk_nodelim buf.reverse
            (fun x hx => hbuf x (List.mem_reverse.mp hx))
            (cleanDelimsAux o c rest (some [])) false
          rw [hb2]
          obtain ⟨t, ht⟩ := cleanDelimsAux_some_head o c rest []
          rw [ht, scanNL_cons_some_open honc rfl]
          have hB := ih.2 [] (by intro x hx; simp at hx)
          rw [ht, scanNL_cons_none_open rfl] at hB
          exact hB
        · rw [show cleanDelimsAux o c (ch :: rest) (some buf) =
              cleanDelimsAux o c rest (some (ch :: buf)) from by
            simp only [cleanDelimsAux]; rw [if_neg hcc, if_neg hco]]
          refine ih.2 (ch :: buf) ?_
          intro x hx
          rcases List.mem_cons.mp hx with h2 | h2
          · rw [h2]; exact ⟨hco, hcc⟩
          · exact hbuf x h2

/-- The scanner is compositional: scanning a concatenation threads the
state through `Option.bind`. -/
theorem scanNL_append {o c : Char} :
    ∀ (a b : Str) (st : Option Bool),
      scanNL o c (a ++ b) st = (scanNL o c a st).bind (scanNL o c b) := by
  intro a
  induction a with
  | nil => intro b st; rfl
  | cons ch a' ih =>
    intro b st
    cases st with
    | none =>
      by_cases hco : ch = o
      · rw [List.cons_append, scanNL_cons_none_open hco,
          scanNL_cons_none_open hco, ih]
      · rw [List.cons_append, scanNL_cons_none_other hco,
          scanNL_cons_none_other hco, ih]
    | some bs =>
      by_cases hcc : ch = c
      · by_cases hbs : bs = true
        · rw [List.cons_append, scanNL_cons_some_close_bad hcc hbs,
            scanNL_cons_some_close_bad hcc hbs]
          rfl
        · have hbs' : bs = false := by simpa using hbs
          rw [List.cons_append, scanNL_cons_some_close_ok hcc hbs',
            scanNL_cons_some_close_ok hcc hbs', ih]
      · by_cases hco : ch = o
        · rw [List.cons_append, scanNL_cons_some_open hcc hco,
            scanNL_cons_some_open hcc hco, ih]
        · rw [List.cons_append, scanNL_cons_some_other hcc hco,
            scanNL_cons_some_other hcc hco, ih]

/-- A scan that succeeds from the worst in-span state also succeeds from
outside a span. -/
theorem scanNL_some_true_isSome {o c : Char} :
    ∀ b : Str, (scanNL o c b (some true)).isSome = true →
      (scanNL o c b none).isSome = true := by
  intro b
  induction b with
  | nil => intro _; rfl
  | cons ch b' ih =>
    intro h
    by_cases hcc : ch = c
    · rw [scanNL_cons_some_close_bad hcc rfl] at h
      exact absurd h (by simp)
    · by_cases hco : ch = o
      · rw [scanNL_cons_some_open hcc hco] at h
        rw [scanNL_cons_none_open hco]
        exact h
      · rw [scanNL_cons_some_other hcc hco,
          show (true || decide (ch = '\n')) = true from by simp] at h
        rw [scanNL_cons_none_other hco]
        exact ih h

/-- Scanning delimiter-free text outside a span keeps the state outside. -/
theorem scanNL_walk_none {o c : Char} :
    ∀ m : Str, (∀ ch ∈ m, ¬ ch = o) → ∀ rest : Str,
      scanNL o c (m ++ rest) none = scanNL o c rest none := by
  intro m
  induction m with
  | nil => intro _ _; rfl
  | cons ch m' ih =>
    intro h rest
    rw [List.cons_append, scanNL_cons_none_other (h ch (List.mem_cons_self ch m'))]
    exact ih (fun x hx => h x (List.mem_cons_of_mem ch hx)) rest

/-- Cutting the text at a newline preserves scan success for the suffix. -/
theorem scanNL_cut {o c : Char}
    (ho : pyIsSpace o = false) (hc : pyIsSpace c = false) {a b : Str}
    (h : (scanNL o c (a ++ '\n' :: b) none).isSome = true) :
    (scanNL o c b none).isSome = true := by
  have hnl : pyIsSpace '\n' = true := by decide
  have hno : ¬ '\n' = o := fun he => by rw [he, ho] at hnl; exact absurd hnl (by simp)
  have hnc : ¬ '\n' = c := fun he => by rw [he, hc] at hnl; exact absurd hnl (by simp)
  rw [scanNL_append] at h
  rw [Option.isSome_iff_exists] at h
  obtain ⟨e, he⟩ := h
  rcases Option.bind_eq_some.mp he with ⟨st1, h1, h2⟩
  cases st1 with
  | none =>
    rw [scanNL_cons_none_other hno] at h2
    rw [h2]
    rfl
  | some bf =>
    rw [scanNL_cons_some_other hnc hno,
      show (bf || decide ('\n' = '\n')) = true from by simp] at h2
    exact scanNL_some_true_isSome b (by rw [h2]; rfl)

/-- Dropping leading lines preserves scan success of the joined text. -/
theorem scanNL_joinLines_drop {o c : Char}
    (ho : pyIsSpace o = false) (hc : pyIsSpace c = false) :
    ∀ (k : Nat) (ls : List Str),
      (scanNL o c (joinLines ls) none).isSome = true →
      (scanNL o c (joinLines (ls.drop k)) none).isSome = true := by
  intro k
  induction k with
  | zero => intro ls h; rwa [List.drop_zero]
  | succ k ih =>
    intro ls h
    cases ls with
    | nil => exact h
    | cons l ls' =>
      rw [List.drop_succ_cons]
      refine ih ls' ?_
      cases ls' with
      | nil => rfl
      | cons l2 ls'' =>
        rw [show joinLines (l :: l2 :: ls'') = l ++ '\n' :: joinLines (l2 :: ls'')
          from rfl] at h
        exact scanNL_cut ho hc h

/-- Stripping edge whitespace preserves scan success. -/
theorem scanNL_pyStrip {o c : Char}
    (ho : pyIsSpace o = false) (hc : pyIsSpace c = false) {s : Str}
    (h : (scanNL o c s none).isSome = true) :
    (scanNL o c (pyStrip s) none).isSome = true := by
  have hlft : (scanNL o c (pyLStrip s) none).isSome = true := by
    rw [← List.takeWhile_append_dropWhile (p := pyIsSpace) (l := s)] at h
    rw [scanNL_walk_none _ ?_ _] at h
    · exact h
    · intro x hx he
      have hxs := List.mem_takeWhile_imp hx
      rw [he, ho] at hxs
      exact absurd hxs (by simp)
  have hdec : pyRStrip (pyLStrip s) ++
      ((pyLStrip s).reverse.takeWhile pyIsSpace).reverse = pyLStrip s := by
    unfold pyRStrip
    rw [← List.reverse_append, List.takeWhile_append_dropWhile, List.reverse_reverse]
  show (scanNL o c (pyRStrip (pyLStrip s)) none).isSome = true
  rw [← hdec, scanNL_append] at hlft
  rw [Option.isSome_iff_exists] at hlft
  obtain ⟨e, he⟩ := hlft
  rcases Option.bind_eq_some.mp he with ⟨st1, h1, _⟩
  rw [h1]
  rfl

theorem CThin_collapseWSAux : ∀ (s : Str) (f : Bool), CThin wsDel s (collapseWSAux s f) := by
  intro s
  induction s with
  | nil => intro f; exact CThin.nil
  | cons ch rest ih =>
    intro f
    by_cases hw : pyIsSpace ch
    · cases f with
      | true =>
        rw [show collapseWSAux (ch :: rest) true = collapseWSAux rest true from by
          simp [collapseWSAux, hw]]
        exact CThin.del ch hw (ih true)
      | false =>
        rw [show collapseWSAux (ch :: rest) false = ' ' :: collapseWSAux rest true
          from by simp [collapseWSAux, hw]]
        exact CThin.subst ch hw (ih true)
    · rw [show collapseWSAux (ch :: rest) f = ch :: collapseWSAux rest false from by
        simp [collapseWSAux, hw]]
      exact CThin.keep ch (ih false)

theorem CThin_pyLStrip (s : Str) : CThin wsDel s (pyLStrip s) := by
  have h : CThin wsDel (s.takeWhile pyIsSpace ++ s.dropWhile pyIsSpace)
      ([] ++ s.dropWhile pyIsSpace) :=
    CThin_append (CThin_del_all (s.takeWhile pyIsSpace)
      (fun x hx => List.mem_takeWhile_imp hx))
      (CThin_refl (s.dropWhile pyIsSpace))
  rw [List.nil_append, List.takeWhile_append_dropWhile] at h
  exact h

theorem pyRStrip_decomp (s : Str) :
    pyRStrip s ++ (s.reverse.takeWhile pyIsSpace).reverse = s := by
  unfold pyRStrip
  rw [← List.reverse_append, List.takeWhile_append_dropWhile, List.reverse_reverse]

theorem CThin_pyRStrip (s : Str) : CThin wsDel s (pyRStrip s) := by
  have h : CThin wsDel (pyRStrip s ++ (s.reverse.takeWhile pyIsSpace).reverse)
      (pyRStrip s ++ []) :=
    CThin_append (CThin_refl (pyRStrip s))
      (CThin_del_all ((s.reverse.takeWhile pyIsSpace).reverse)
        (fun x hx => List.mem_takeWhile_imp (List.mem_reverse.mp hx)))
  rw [List.append_nil, pyRStrip_decomp] at h
  exact h

theorem CThin_cleanInner (m : Str) : CThin wsDel m (cleanInner m) := by
  have hcore : CThin wsDel (pyStrip m) (collapseWS (pyStrip m)) :=
    CThin_collapseWSAux _ false
  have h2 : CThin wsDel (pyLStrip m) (collapseWS (pyStrip m)) := by
    have h := CThin_append (a := pyStrip m)
      hcore
      (CThin_del_all (((pyLStrip m).reverse.takeWhile pyIsSpace).reverse)
        (fun x hx => List.mem_takeWhile_imp (List.mem_reverse.mp hx)))
    rw [List.append_nil] at h
    rw [show (pyStrip m : Str) ++ ((pyLStrip m).reverse.takeWhile pyIsSpace).reverse
        = pyLStrip m from pyRStrip_decomp (pyLStrip m)] at h
    exact h
  have h3 := CThin_append (b := pyLStrip m)
    (CThin_del_all (m.takeWhile pyIsSpace) (fun x hx => List.mem_takeWhile_imp hx))
    h2
  rw [List.nil_append] at h3
  unfold pyLStrip at h3
  rw [List.takeWhile_append_dropWhile] at h3
  exact h3

theorem CThin_cleanDelimsAux (q r : Char) :
    ∀ s : Str, CThin wsDel s (cleanDelimsAux q r s none) ∧
      ∀ buf : Str,
        CThin wsDel (q :: (buf.reverse ++ s)) (cleanDelimsAux q r s (some buf)) := by
  intro s
  induction s with
  | nil =>
    constructor
    · exact CThin.nil
    · intro buf
      show CThin wsDel (q :: (buf.reverse ++ [])) (q :: buf.reverse)
      rw [List.append_nil]
      exact CThin_refl _
  | cons ch rest ih =>
    constructor
    · by_cases hcq : ch = q
      · rw [show cleanDelimsAux q r (ch :: rest) none =
            cleanDelimsAux q r rest (some []) from by
          simp only [cleanDelimsAux]; rw [if_pos hcq]]
        have h := ih.2 []
        rw [List.reverse_nil, List.nil_append] at h
        rw [hcq]
        exact h
      · rw [show cleanDelimsAux q r (ch :: rest) none =
            ch :: cleanDelimsAux q r rest none from by
          simp only [cleanDelimsAux]; rw [if_neg hcq]]
        exact CThin.keep ch ih.1
    · intro buf
      by_cases hcr : ch = r
      · rw [show cleanDelimsAux q r (ch :: rest) (some buf) =
            q :: (cleanInner buf.reverse ++ r :: cleanDelimsAux q r rest none)
            from by simp only [cleanDelimsAux]; rw [if_pos hcr]]
        refine CThin.keep q ?_
        refine CThin_append (CThin_cleanInner buf.reverse) ?_
        rw [hcr]
        exact CThin.keep r ih.1
      · by_cases hcq : ch = q
        · rw [show cleanDelimsAux q r (ch :: rest) (some buf) =
              q :: (buf.reverse ++ cleanDelimsAux q r rest (some [])) from by
            simp only [cleanDelimsAux]; rw [if_neg hcr, if_pos hcq]; simp]
          refine CThin.keep q ?_
          refine CThin_append (CThin_refl buf.reverse) ?_
          have h := ih.2 []
          rw [List.reverse_nil, List.nil_append] at h
          rw [hcq]
          exact h
        · rw [show cleanDelimsAux q r (ch :: rest) (some buf) =
              cleanDelimsAux q r rest (some (ch :: buf)) from by
            simp only [cleanDelimsAux]; rw [if_neg hcr, if_neg hcq]]
          have h := ih.2 (ch :: buf)
          rw [List.reverse_cons, List.append_assoc, List.singleton_append] at h
          exact h

theorem CThin_cleanDelims (q r : Char) (s : Str) :
    CThin wsDel s (cleanDelims q r s) :=
  (CThin_cleanDelimsAux q r s).1

theorem CThin_compactInteriorAux :
    ∀ (s : Str) (f : Bool), CThin wsDel s (compactInteriorAux s f) := by
  intro s
  induction s with
  | nil => intro f; exact CThin.nil
  | cons ch rest ih =>
    intro f
    cases f with
    | true =>
      by_cases hw : pyIsSpace ch
      · rw [show compactInteriorAux (ch :: rest) true = compactInteriorAux rest true
          from by simp [compactInteriorAux, hw]]
        exact CThin.del ch hw (ih true)
      · rw [show compactInteriorAux (ch :: rest) true =
            ch :: compactInteriorAux rest false from by simp [compactInteriorAux, hw]]
        exact CThin.keep ch (ih false)
    | false =>
      by_cases hw : pyIsSpace ch
      · cases rest with
        | nil =>
          rw [show compactInteriorAux [ch] false = [ch] from by
            simp [compactInteriorAux, hw]]
          exact CThin_refl _
        | cons d rest' =>
          by_cases hd : pyIsSpace d
          · rw [show compactInteriorAux (ch :: d :: rest') false =
                ' ' :: compactInteriorAux (d :: rest') true from by
              simp [compactInteriorAux, hw, hd]]
            exact CThin.subst ch hw (ih true)
          · rw [show compactInteriorAux (ch :: d :: rest') false =
                ch :: compactInteriorAux (d :: rest') false from by
              simp [compactInteriorAux, hw, hd]]
            exact CThin.keep ch (ih false)
      · rw [show compactInteriorAux (ch :: rest) false =
            ch :: compactInteriorAux rest false from by simp [compactInteriorAux, hw]]
        exact CThin.keep ch (ih false)

theorem CThin_compactLine (l : Str) : CThin wsDel l (compactLine l) := by
  show CThin wsDel l
    ((pyRStrip l).takeWhile pyIsSpace ++
      compactInterior ((pyRStrip l).dropWhile pyIsSpace))
  have hcore : CThin wsDel (pyRStrip l)
      ((pyRStrip l).takeWhile pyIsSpace ++
        compactInterior ((pyRStrip l).dropWhile pyIsSpace)) := by
    have h := CThin_append (a := (pyRStrip l).takeWhile pyIsSpace)
      (CThin_refl _) (CThin_compactInteriorAux ((pyRStrip l).dropWhile pyIsSpace) false)
    rw [List.takeWhile_append_dropWhile] at h
    exact h
  have h := CThin_append (a := pyRStrip l) hcore
    (CThin_del_all ((l.reverse.takeWhile pyIsSpace).reverse)
      (fun x hx => List.mem_takeWhile_imp (List.mem_reverse.mp hx)))
  rw [List.append_nil, pyRStrip_decomp] at h
  exact h

theorem CThin_joinLines_map_compactLine :
    ∀ ls : List Str,
      CThin wsDel (joinLines ls) (joinLines (ls.map compactLine)) := by
  intro ls
  induction ls with
  | nil => exact CThin.nil
  | cons l ls' ih =>
    cases ls' with
    | nil => exact CThin_compactLine l
    | cons l2 ls'' =>
      rw [joinLines_cons l (by simp), List.map_cons,
        joinLines_cons (compactLine l) (by simp)]
      exact CThin_append (CThin_compactLine l)
        (CThin.keep '\n' ih)

theorem CThin_joinLines_filter :
    ∀ ls : List Str,
      CThin wsDel (joinLines ls)
        (joinLines (ls.filter fun l => pyStrip l ≠ [])) := by
  have hnl : wsDel '\n' := by show pyIsSpace '\n' = true; decide
  intro ls
  induction ls with
  | nil => exact CThin.nil
  | cons l ls' ih =>
    by_cases hp : pyStrip l = []
    · rw [List.filter_cons_of_neg (by simp [hp])]
      have hws : ∀ ch ∈ l, wsDel ch := by
        intro ch hch
        exact pyStrip_eq_nil_iff.mp hp ch hch
      cases ls' with
      | nil =>
        show CThin wsDel l (joinLines (List.filter _ []))
        exact CThin_del_all l hws
      | cons l2 ls'' =>
        rw [joinLines_cons l (by simp)]
        have h := CThin_append (CThin_del_all l hws) (CThin.del '\n' hnl ih)
        rw [List.nil_append] at h
        exact h
    · rw [List.filter_cons_of_pos (by simp [hp])]
      cases ls' with
      | nil => exact CThin_refl _
      | cons l2 ls'' =>
        rw [joinLines_cons l (by simp)]
        rcases hf : List.filter (fun l => decide (pyStrip l ≠ [])) (l2 :: ls'')
          with _ | ⟨x, xs⟩
        · rw [hf] at ih
          show CThin wsDel (l ++ '\n' :: joinLines (l2 :: ls'')) (joinLines [l])
          have h := CThin_append (CThin_refl l) (CThin.del '\n' hnl ih)
          rw [show joinLines ([] : List Str) = [] from rfl, List.append_nil] at h
          exact h
        · rw [hf] at ih
          rw [show joinLines (l :: x :: xs) = l ++ '\n' :: joinLines (x :: xs) from
            joinLines_cons l (by simp)]
          exact CThin_append (CThin_refl l) (CThin.keep '\n' ih)

theorem CThin_joinLines_balanceGo :
    ∀ (ls : List Str) (d : Nat),
      CThin endDel (joinLines ls) (joinLines (balanceGo ls d)) := by
  have hnl : endDel '\n' := Or.inl (by decide)
  intro ls
  induction ls with
  | nil => intro d; exact CThin.nil
  | cons l ls' ih =>
    intro d
    by_cases hsub : ("subgraph".toList).isPrefixOf (pyStrip l) = true
    · rw [balanceGo_cons_sub ls' d hsub]
      cases ls' with
      | nil => exact CThin_refl _
      | cons l2 ls'' =>
        rw [joinLines_cons l (by simp)]
        rcases hb : balanceGo (l2 :: ls'') (d + 1) with _ | ⟨x, xs⟩
        · have h2 := ih (d + 1)
          rw [hb] at h2
          have h := CThin_append (CThin_refl l) (CThin.del '\n' hnl h2)
          rw [show joinLines ([] : List Str) = [] from rfl, List.append_nil] at h
          exact h
        · have h2 := ih (d + 1)
          rw [hb] at h2
          rw [joinLines_cons l (by simp)]
          exact CThin_append (CThin_refl l) (CThin.keep '\n' h2)
    · by_cases hend : pyStrip l = "end".toList
      · by_cases hd : d > 0
        · rw [balanceGo_cons_end_pos ls' hsub hend hd]
          cases ls' with
          | nil => exact CThin_refl _
          | cons l2 ls'' =>
            rw [joinLines_cons l (by simp)]
            rcases hb : balanceGo (l2 :: ls'') (d - 1) with _ | ⟨x, xs⟩
            · have h2 := ih (d - 1)
              rw [hb] at h2
              have h := CThin_append (CThin_refl l) (CThin.del '\n' hnl h2)
              rw [show joinLines ([] : List Str) = [] from rfl, List.append_nil] at h
              exact h
            · have h2 := ih (d - 1)
              rw [hb] at h2
              rw [joinLines_cons l (by simp)]
              exact CThin_append (CThin_refl l) (CThin.keep '\n' h2)
        · rw [balanceGo_cons_end_zero ls' hsub hend hd]
          have hld : ∀ ch ∈ l, endDel ch := by
            intro ch hch
            rw [← List.takeWhile_append_dropWhile (p := pyIsSpace) (l := l)] at hch
            rcases List.mem_append.mp hch with h | h
            · exact Or.inl (List.mem_takeWhile_imp h)
            · have h2 : ch ∈ pyStrip l ++
                  ((pyLStrip l).reverse.takeWhile pyIsSpace).reverse := by
                show ch ∈ pyRStrip (pyLStrip l) ++ _
                rw [pyRStrip_decomp]
                exact h
              rcases List.mem_append.mp h2 with h3 | h3
              · rw [hend] at h3
                rcases List.mem_cons.mp h3 with h4 | h4
                · exact Or.inr (Or.inl h4)
                rcases List.mem_cons.mp h4 with h5 | h5
                · exact Or.inr (Or.inr (Or.inl h5))
                rcases List.mem_cons.mp h5 with h6 | h6
                · exact Or.inr (Or.inr (Or.inr h6))
                · exact absurd h6 (by simp)
              · exact Or.inl (List.mem_takeWhile_imp (List.mem_reverse.mp h3))
          cases ls' with
          | nil =>
            show CThin endDel l (joinLines (balanceGo [] d))
            exact CThin_del_all l hld
          | cons l2 ls'' =>
            rw [joinLines_cons l (by simp)]
            have h := CThin_append (CThin_del_all l hld) (CThin.del '\n' hnl (ih d))
            rw [List.nil_append] at h
            exact h
      · rw [balanceGo_cons_other ls' d hsub hend]
        cases ls' with
        | nil => exact CThin_refl _
        | cons l2 ls'' =>
          rw [joinLines_cons l (by simp)]
          rcases hb : balanceGo (l2 :: ls'') d with _ | ⟨x, xs⟩
          · have h2 := ih d
            rw [hb] at h2
            have h := CThin_append (CThin_refl l) (CThin.del '\n' hnl h2)
            rw [show joinLines ([] : List Str) = [] from rfl, List.append_nil] at h
            exact h
          · have h2 := ih d
            rw [hb] at h2
            rw [joinLines_cons l (by simp)]
            exact CThin_append (CThin_refl l) (CThin.keep '\n' h2)

theorem wsDel_ne {o c : Char} (ho : pyIsSpace o = false) (hc : pyIsSpace c = false) :
    ∀ ch, wsDel ch → ch ≠ o ∧ ch ≠ c := by
  intro ch hch
  have hch' : pyIsSpace ch = true := hch
  constructor
  · intro he; rw [he, ho] at hch'; exact absurd hch' (by simp)
  · intro he; rw [he, hc] at hch'; exact absurd hch' (by simp)

theorem endDel_ne {o c : Char} (ho : pyIsSpace o = false) (hc : pyIsSpace c = false)
    (hoe : o ≠ 'e' ∧ o ≠ 'n' ∧ o ≠ 'd') (hce : c ≠ 'e' ∧ c ≠ 'n' ∧ c ≠ 'd') :
    ∀ ch, endDel ch → ch ≠ o ∧ ch ≠ c := by
  intro ch hch
  rcases hch with h | h | h | h
  · exact wsDel_ne ho hc ch h
  · exact ⟨fun he => hoe.1 (by rw [← he]; exact h),
      fun he => hce.1 (by rw [← he]; exact h)⟩
  · exact ⟨fun he => hoe.2.1 (by rw [← he]; exact h),
      fun he => hce.2.1 (by rw [← he]; exact h)⟩
  · exact ⟨fun he => hoe.2.2 (by rw [← he]; exact h),
      fun he => hce.2.2 (by rw [← he]; exact h)⟩

theorem scanNL_thin_success {D : Char → Prop} {o c : Char}
    (ho : pyIsSpace o = false) (hc : pyIsSpace c = false)
    (hD : ∀ ch, D ch → ch ≠ o ∧ ch ≠ c) {s t : Str} (ht : CThin D s t)
    (h : (scanNL o c s none).isSome = true) :
    (scanNL o c t none).isSome = true := by
  rw [Option.isSome_iff_exists] at h
  obtain ⟨e, he⟩ := h
  obtain ⟨e', he', _⟩ := scanNL_thin ho hc hD ht he stLE_none
  rw [he']
  rfl

theorem CThin_bracePass (s : Str) : CThin wsDel s (bracePass s) := by
  unfold bracePass
  by_cases hcs : containsSub s ("classDiagram".toList) = true
  · rw [if_pos hcs]; exact CThin_refl s
  · rw [if_neg hcs]; exact CThin_cleanDelims '{' '}' s

/-- Scan success at the end of the character-level passes is carried through
the line-level stages of `sanitize_mermaid` to the final output. -/
theorem scanNL_sanitize_of_charstage {o c : Char}
    (ho : pyIsSpace o = false) (hc : pyIsSpace c = false)
    (hoe : o ≠ 'e' ∧ o ≠ 'n' ∧ o ≠ 'd') (hce : c ≠ 'e' ∧ c ≠ 'n' ∧ c ≠ 'd')
    {code : Str} (h : (scanNL o c (sanitizeChar code) none).isSome = true) :
    noNLSpans o c (sanitize_mermaid code) = true := by
  unfold noNLSpans sanitize_mermaid
  by_cases hcode : code = []
  · rw [if_pos hcode, hcode]; rfl
  rw [if_neg hcode]
  have h1 : (scanNL o c
      (joinLines ((splitLines (sanitizeChar code)).map compactLine)) none).isSome
      = true := by
    refine scanNL_thin_success ho hc (wsDel_ne ho hc)
      (CThin_joinLines_map_compactLine (splitLines (sanitizeChar code))) ?_
    rwa [joinLines_splitLines]
  have h2 : (scanNL o c (joinLines (sanitizedLines code)) none).isSome = true := by
    unfold sanitizedLines
    exact scanNL_thin_success ho hc (wsDel_ne ho hc)
      (CThin_joinLines_filter ((splitLines (sanitizeChar code)).map compactLine)) h1
  have h3 := scanNL_joinLines_drop ho hc (sanitizeStart code) (sanitizedLines code) h2
  have h4 : (scanNL o c (joinLines
      (balanceSubgraphEnds ((sanitizedLines code).drop (sanitizeStart code))))
      none).isSome = true := by
    unfold balanceSubgraphEnds
    exact scanNL_thin_success ho hc (endDel_ne ho hc hoe hce)
      (CThin_joinLines_balanceGo ((sanitizedLines code).drop (sanitizeStart code)) 0) h3
  exact scanNL_pyStrip ho hc h4

/-- C2 (corrected): for every input, the output of `sanitize_mermaid`
contains no raw newline inside any *innermost* bracket, parenthesis, or
(when the curly-brace pass ran, i.e. the post-parenthesis text does not
contain `classDiagram`) curly-brace span, nor inside any consecutively
paired double-quote span; spans nested inside other delimiters of the same
kind are NOT rewritten (the regex passes match only delimiter-free span
contents), as the counterexample shows. -/
theorem C2_innermost_spans_no_newline :
    ∀ code : Str,
      noNLSpans '[' ']' (sanitize_mermaid code) = true ∧
      noNLSpans '(' ')' (sanitize_mermaid code) = true ∧
      noNLSpans '"' '"' (sanitize_mermaid code) = true ∧
      (containsSub (cleanDelims '(' ')' (cleanDelims '[' ']'
          (classFixStage (sanitizePre code)))) ("classDiagram".toList) = false →
        noNLSpans '{' '}' (sanitize_mermaid code) = true) := by
  intro code
  refine ⟨?_, ?_, ?_, ?_⟩
  · refine scanNL_sanitize_of_charstage (by decide) (by decide)
      (by refine ⟨?_, ?_, ?_⟩ <;> decide) (by refine ⟨?_, ?_, ?_⟩ <;> decide) ?_
    show (scanNL '[' ']' (cleanDelims '"' '"' (bracePass (cleanDelims '(' ')'
      (cleanDelims '[' ']' (classFixStage (sanitizePre code)))))) none).isSome = true
    refine scanNL_thin_success (by decide) (by decide)
      (wsDel_ne (by decide) (by decide)) (CThin_cleanDelims '"' '"' _) ?_
    refine scanNL_thin_success (by decide) (by decide)
      (wsDel_ne (by decide) (by decide)) (CThin_bracePass _) ?_
    refine scanNL_thin_success (by decide) (by decide)
      (wsDel_ne (by decide) (by decide)) (CThin_cleanDelims '(' ')' _) ?_
    exact (scanNL_cleanDelimsAux (by decide) (by decide)
      (classFixStage (sanitizePre code))).1
  · refine scanNL_sanitize_of_charstage (by decide) (by decide)
      (by refine ⟨?_, ?_, ?_⟩ <;> decide) (by refine ⟨?_, ?_, ?_⟩ <;> decide) ?_
    show (scanNL '(' ')' (cleanDelims '"' '"' (bracePass (cleanDelims '(' ')'
      (cleanDelims '[' ']' (classFixStage (sanitizePre code)))))) none).isSome = true
    refine scanNL_thin_success (by decide) (by decide)
      (wsDel_ne (by decide) (by decide)) (CThin_cleanDelims '"' '"' _) ?_
    refine scanNL_thin_success (by decide) (by decide)
      (wsDel_ne (by decide) (by decide)) (CThin_bracePass _) ?_
    exact (scanNL_cleanDelimsAux (by decide) (by decide)
      (cleanDelims '[' ']' (classFixStage (sanitizePre code)))).1
  · refine scanNL_sanitize_of_charstage (by decide) (by decide)
      (by refine ⟨?_, ?_, ?_⟩ <;> decide) (by refine ⟨?_, ?_, ?_⟩ <;> decide) ?_
    exact (scanNL_cleanDelimsAux (by decide) (by decide)
      (bracePass (cleanDelims '(' ')' (cleanDelims '[' ']'
        (classFixStage (sanitizePre code)))))).1
  · intro hcs
    refine scanNL_sanitize_of_charstage (by decide) (by decide)
      (by refine ⟨?_, ?_, ?_⟩ <;> decide) (by refine ⟨?_, ?_, ?_⟩ <;> decide) ?_
    show (scanNL '{' '}' (cleanDelims '"' '"' (bracePass (cleanDelims '(' ')'
      (cleanDelims '[' ']' (classFixStage (sanitizePre code)))))) none).isSome = true
    refine scanNL_thin_success (by decide) (by decide)
      (wsDel_ne (by decide) (by decide)) (CThin_cleanDelims '"' '"' _) ?_
    rw [show bracePass (cleanDelims '(' ')' (cleanDelims '[' ']'
        (classFixStage (sanitizePre code)))) =
      cleanDelims '{' '}' (cleanDelims '(' ')' (cleanDelims '[' ']'
        (classFixStage (sanitizePre code)))) from by
      unfold bracePass; rw [if_neg (by simp only [hcs]; exact fun h => absurd h (by simp))]]
    exact (scanNL_cleanDelimsAux (by decide) (by decide)
      (cleanDelims '(' ')' (cleanDelims '[' ']'
        (classFixStage (sanitizePre code))))).1

/-- C2 witness: a concrete multiline diamond label, with the curly-brace
hypothesis discharged. -/
theorem C2_innermost_spans_no_newline_witness :
    containsSub (cleanDelims '(' ')' (cleanDelims '[' ']'
      (classFixStage (sanitizePre ("graph TD\nA\x7bx\ny\x7d".toList)))))
      ("classDiagram".toList) = false ∧
    noNLSpans '{' '}' (sanitize_mermaid ("graph TD\nA\x7bx\ny\x7d".toList)) = true :=
  ⟨by decide, (C2_innermost_spans_no_newline ("graph TD\nA\x7bx\ny\x7d".toList)).2.2.2
    (by decide)⟩
